import Mathlib

/-!
# Habit tracker (`src/js/app.js`): data model, persistence and mutation operations

A shallow embedding of the data-handling part of `app.js` together with the
theorems that settle the specification's claims about it.

Modelling conventions

* A plain JavaScript object is the list of its own properties in creation
  order (`JSObject`); the reordering of array-index-like names is not
  modelled.  Behind its own properties an object has those of
  `Object.prototype`: a read finds them (`objRead`), and an assignment of a
  primitive to the name `__proto__` is swallowed by the inherited setter
  (`objAssign`).
* Built-in objects (`Object.prototype`, `Object`, the methods of
  `Object.prototype`) are not part of the state: every call is described in a
  realm whose built-ins are as at start-up, and what a call writes to a
  built-in is not recorded.
* `app.js` is a classic script without a `"use strict"` directive: an
  assignment or `delete` that cannot be done fails silently.
* JavaScript strings are Lean strings (sequences of Unicode scalar values).
* `Date.now()` readings are natural numbers (milliseconds since the epoch); a
  `Date` is its time value.  JSON numbers are exact rationals: rounding to the
  nearest double is not modelled.
* An uncaught exception is `none`.
* DOM rendering (`render`) has no effect on the data and is left out.
-/

namespace HabitTracker

/-! ## Plain JavaScript objects -/

/-- Own properties of a plain object, in creation order. -/
abbrev JSObject (α : Type) := List (String × α)

/-- Property read `o[k]`; `none` stands for `undefined`. -/
def objGet {α : Type} : JSObject α → String → Option α
  | [], _ => none
  | (k', v) :: rest, k => if k' = k then some v else objGet rest k

/-- Property write `o[k] = v`: overwrite in place, or create at the end. -/
def objSet {α : Type} : JSObject α → String → α → JSObject α
  | [], k, v => [(k, v)]
  | (k', v') :: rest, k, v =>
    if k' = k then (k', v) :: rest else (k', v') :: objSet rest k v

/-- Property removal `delete o[k]`. -/
def objDelete {α : Type} (o : JSObject α) (k : String) : JSObject α :=
  o.filter (fun p => decide (p.1 ≠ k))

/-- Own property names, `Object.keys(o)`. -/
def objKeys {α : Type} (o : JSObject α) : List String :=
  o.map Prod.fst

/-- The own property names of `Object.prototype`, which every plain object
inherits: `__proto__` is an accessor whose getter gives `Object.prototype`,
`constructor` is the function `Object`, the others are methods. -/
def objectPrototypeNames : List String :=
  ["constructor", "__defineGetter__", "__defineSetter__", "hasOwnProperty",
    "__lookupGetter__", "__lookupSetter__", "isPrototypeOf", "propertyIsEnumerable",
    "toString", "valueOf", "__proto__", "toLocaleString"]

/-- What the expression `o[k]` finds on a plain object. -/
inductive Lookup (α : Type) where
  | own (v : α)
  | inherited
  | absent
deriving DecidableEq, Repr

/-- The read `o[k]` on a plain object: the own property if there is one, else
the property of `Object.prototype` of that name (a built-in object, truthy),
else `undefined`. -/
def objRead {α : Type} (o : JSObject α) (k : String) : Lookup α :=
  match objGet o k with
  | some v => Lookup.own v
  | none => if k ∈ objectPrototypeNames then Lookup.inherited else Lookup.absent

/-- The assignment `o[k] = v` of a primitive `v` on a plain object.  An own
property is overwritten.  Without one, the name `__proto__` reaches the setter
of `Object.prototype`, which ignores a primitive and defines nothing; any
other name gets a new own property (the inherited methods are writable data
properties, so they are shadowed). -/
def objAssign {α : Type} (o : JSObject α) (k : String) (v : α) : JSObject α :=
  if (objGet o k).isNone ∧ k = "__proto__" then o else objSet o k v

/-! ## JSON values and `JSON.stringify` -/

/-- Values that `JSON.parse` can return. -/
inductive JSValue where
  | null
  | bool (b : Bool)
  | num (q : ℚ)
  | str (s : String)
  | arr (items : List JSValue)
  | obj (props : List (String × JSValue))

/-- Lower-case hexadecimal digit. -/
def hexDigit (d : Nat) : Char :=
  if d < 10 then Char.ofNat (48 + d) else Char.ofNat (87 + d)

/-- Escape of one character inside a JSON string literal (QuoteJSONString). -/
def escapeChar (c : Char) : List Char :=
  if c = '"' then ['\\', '"']
  else if c = '\\' then ['\\', '\\']
  else if c.toNat = 8 then ['\\', 'b']
  else if c.toNat = 9 then ['\\', 't']
  else if c.toNat = 10 then ['\\', 'n']
  else if c.toNat = 12 then ['\\', 'f']
  else if c.toNat = 13 then ['\\', 'r']
  else if c.toNat < 32 then
    ['\\', 'u', '0', '0', hexDigit (c.toNat / 16), hexDigit (c.toNat % 16)]
  else [c]

/-- Body of a JSON string literal, without the surrounding quotes. -/
def escapeChars : List Char → List Char
  | [] => []
  | c :: cs => escapeChar c ++ escapeChars cs

/-- A quoted JSON string literal. -/
def quoteString (s : String) : List Char :=
  '"' :: (escapeChars s.data ++ ['"'])

/-- Decimal digits of a natural number, most significant first. -/
def natDigits : Nat → Nat → List Char
  | 0, _ => []
  | fuel + 1, n =>
    if n < 10 then [Char.ofNat (48 + n)]
    else natDigits fuel (n / 10) ++ [Char.ofNat (48 + n % 10)]

/-- Decimal rendering of an integer. -/
def intToString (i : Int) : List Char :=
  if i < 0 then '-' :: natDigits (i.natAbs + 1) i.natAbs
  else natDigits (i.natAbs + 1) i.natAbs

/-- Digits after the decimal point of `r / d` (with `r < d`), at most `fuel` of them. -/
def fracDigits : Nat → Nat → Nat → List Char
  | 0, _, _ => []
  | fuel + 1, r, d =>
    if r = 0 then []
    else Char.ofNat (48 + (10 * r) / d) :: fracDigits fuel ((10 * r) % d) d

/-- Rendering of a number: integers in plain decimal, as `Number::toString`
gives for every integer below `10^21`; other values in positional notation. -/
def numberToString (q : ℚ) : List Char :=
  if q.den = 1 then intToString q.num
  else
    (if q.num < 0 then ['-'] else []) ++
      natDigits (q.num.natAbs / q.den + 1) (q.num.natAbs / q.den) ++
      '.' :: fracDigits 1100 (q.num.natAbs % q.den) q.den

mutual
/-- Serialisation of a value, `JSON.stringify(v)` without indentation. -/
def stringifyValue : JSValue → List Char
  | .null => ['n', 'u', 'l', 'l']
  | .bool true => ['t', 'r', 'u', 'e']
  | .bool false => ['f', 'a', 'l', 's', 'e']
  | .num q => numberToString q
  | .str s => quoteString s
  | .arr [] => ['[', ']']
  | .arr (x :: xs) => '[' :: (stringifyValue x ++ stringifyElements xs)
  | .obj [] => ['{', '}']
  | .obj ((k, v) :: ps) =>
    '{' :: (quoteString k ++ ':' :: (stringifyValue v ++ stringifyMembers ps))
/-- The elements after the first one, each preceded by a comma, then `]`. -/
def stringifyElements : List JSValue → List Char
  | [] => [']']
  | x :: xs => ',' :: (stringifyValue x ++ stringifyElements xs)
/-- The members after the first one, each preceded by a comma, then `}`. -/
def stringifyMembers : List (String × JSValue) → List Char
  | [] => ['}']
  | (k, v) :: ps =>
    ',' :: (quoteString k ++ ':' :: (stringifyValue v ++ stringifyMembers ps))
end

/-- The text `JSON.stringify(v)`. -/
def jsonStringify (v : JSValue) : String :=
  String.mk (stringifyValue v)

/-! ## Application data -/

/-- A habit record `{ id, name, createdAt }`. -/
structure Habit where
  id : String
  name : String
  createdAt : Nat
deriving DecidableEq, Repr

/-- The application state `appData = { habits, tracking }`; `tracking` maps a
date key to the object whose property names are the habits completed that day. -/
structure AppData where
  habits : List Habit
  tracking : JSObject (JSObject Bool)
deriving DecidableEq, Repr

/-- The initial value of `appData` (lines 21-24), also used on a parse failure. -/
def emptyAppData : AppData :=
  AppData.mk [] []

/-- The JavaScript value of a habit record. -/
def habitToJS (h : Habit) : JSValue :=
  .obj [("id", .str h.id), ("name", .str h.name), ("createdAt", .num (h.createdAt : ℚ))]

/-- The JavaScript value of one day's object. -/
def dayToJS (day : JSObject Bool) : JSValue :=
  .obj (day.map (fun p => (p.1, JSValue.bool p.2)))

/-- The JavaScript value of the tracking object. -/
def trackingToJS (t : JSObject (JSObject Bool)) : JSValue :=
  .obj (t.map (fun p => (p.1, dayToJS p.2)))

/-- The JavaScript value of the application state. -/
def toJS (d : AppData) : JSValue :=
  .obj [("habits", .arr (d.habits.map habitToJS)), ("tracking", trackingToJS d.tracking)]

/-- The storage key (line 2). -/
def STORAGE_KEY : String := "habitTrackerData"

/-- The program state the operations act on: `appData` and `localStorage`. -/
structure Store where
  appData : AppData
  localStorage : JSObject String
deriving DecidableEq, Repr

/-- Lines 49-51: `localStorage.setItem(STORAGE_KEY, JSON.stringify(appData))`. -/
def saveData (s : Store) : Store :=
  Store.mk s.appData (objSet s.localStorage STORAGE_KEY (jsonStringify (toJS s.appData)))

/-- What a call evaluates to. -/
inductive JSReturn where
  | undefined
  | boolean (b : Bool)
deriving DecidableEq, Repr

/-! ## Mutation operations -/

/-- Lines 185-201.  Every `appData.tracking[dateKey]` is a read through the
prototype chain; reading a property of `undefined` throws.

When `dateKey` is not an own property of `tracking` but a name inherited from
`Object.prototype`, line 186 finds a truthy built-in and creates nothing, and
lines 191 and 193 act on that built-in, not on `appData`.  Two such calls
throw at line 195: `delete` of `__proto__` on `Object.prototype` removes the
accessor, so the next read of `tracking["__proto__"]` is `undefined`; and
`delete` of `keys` on `Object` removes `Object.keys` itself.  Otherwise
`delete appData.tracking[dateKey]` of line 196 finds no own property.

The date key created at line 187 is never `__proto__` (that name is found at
line 186), so `objSet` is the assignment of the empty object. -/
def toggleTracking (dateKey habitId : String) (checked : Bool) (s : Store) : Option Store :=
  let t0 := s.appData.tracking
  let t1 :=
    match objRead t0 dateKey with
    | Lookup.absent => objSet t0 dateKey []
    | _ => t0
  let t2 : Option (JSObject (JSObject Bool)) :=
    match objRead t1 dateKey with
    | Lookup.absent => none
    | Lookup.inherited =>
      if checked then some t1
      else if (dateKey = "__proto__" ∧ habitId = "__proto__")
          ∨ (dateKey = "constructor" ∧ habitId = "keys") then none
      else some t1
    | Lookup.own day =>
      if checked then some (objSet t1 dateKey (objAssign day habitId true))
      else
        let t := objSet t1 dateKey (objDelete day habitId)
        match objRead t dateKey with
        | Lookup.own day' => some (if (objKeys day').length = 0 then objDelete t dateKey else t)
        | Lookup.inherited => some t
        | Lookup.absent => none
  t2.map (fun t => saveData (Store.mk (AppData.mk s.appData.habits t) s.localStorage))

/-- In-place rename of the first habit with the given id (`find` then assign). -/
def renameFirst (id newName : String) : List Habit → List Habit
  | [] => []
  | h :: hs =>
    if h.id = id then Habit.mk h.id newName h.createdAt :: hs
    else h :: renameFirst id newName hs

/-- Characters removed by `String.prototype.trim` (WhiteSpace and LineTerminator). -/
def isTrimChar (c : Char) : Bool :=
  decide ((9 ≤ c.toNat ∧ c.toNat ≤ 13) ∨ c.toNat = 32 ∨ c.toNat = 160 ∨ c.toNat = 5760 ∨
    (8192 ≤ c.toNat ∧ c.toNat ≤ 8202) ∨ c.toNat = 8232 ∨ c.toNat = 8233 ∨ c.toNat = 8239 ∨
    c.toNat = 8287 ∨ c.toNat = 12288 ∨ c.toNat = 65279)

/-- The method `s.trim()`. -/
def trim (s : String) : String :=
  String.mk ((s.data.dropWhile isTrimChar).reverse.dropWhile isTrimChar).reverse

/-- Lines 216-223.  The function has no `return` statement. -/
def updateHabit (id newName : String) (s : Store) : Store × JSReturn :=
  match s.appData.habits.find? (fun h => decide (h.id = id)) with
  | some _ =>
    (saveData (Store.mk
      (AppData.mk (renameFirst id (trim newName) s.appData.habits) s.appData.tracking)
      s.localStorage), JSReturn.undefined)
  | none => (s, JSReturn.undefined)

/-- One round of the `forEach` callback of `deleteHabit` (lines 230-235); an
exception thrown in an earlier round ends the loop. -/
def deleteHabitStep (id : String) (acc : Option (JSObject (JSObject Bool))) (dateKey : String) :
    Option (JSObject (JSObject Bool)) :=
  acc.bind (fun t =>
    (objGet t dateKey).bind (fun day =>
      let t1 := objSet t dateKey (objDelete day id)
      (objGet t1 dateKey).map (fun day' =>
        if (objKeys day').length = 0 then objDelete t1 dateKey else t1)))

/-- Lines 226-239.  The function has no `return` statement. -/
def deleteHabit (id : String) (s : Store) : Option (Store × JSReturn) :=
  let habits := s.appData.habits.filter (fun h => decide (h.id ≠ id))
  ((objKeys s.appData.tracking).foldl (deleteHabitStep id) (some s.appData.tracking)).map
    (fun t => (saveData (Store.mk (AppData.mk habits t) s.localStorage), JSReturn.undefined))

/-- Digit of `Number.prototype.toString(36)`. -/
def digit36 (d : Nat) : Char :=
  if d < 10 then Char.ofNat (48 + d) else Char.ofNat (87 + d)

/-- Base-36 digits of a natural number, most significant first. -/
def base36 : Nat → Nat → List Char
  | 0, _ => []
  | fuel + 1, n =>
    if n < 36 then [digit36 n] else base36 fuel (n / 36) ++ [digit36 (n % 36)]

/-- The text `n.toString(36)` of a non-negative integer. -/
def toString36 (n : Nat) : String :=
  String.mk (base36 (n + 1) n)

/-- Lines 54-56.  `now` is the reading of `Date.now()`; `randomDigits` is
`Math.random().toString(36).substr(2)`, the base-36 fraction digits of the draw. -/
def generateId (now : Nat) (randomDigits : String) : String :=
  toString36 now ++ randomDigits

/-- What `addHabit` reads from its environment: the clock inside `generateId`,
the digits of the random draw, and the clock read for `createdAt`. -/
structure AddEnv where
  idClock : Nat
  randomDigits : String
  createdClock : Nat
deriving DecidableEq, Repr

/-- Lines 204-213. -/
def addHabit (name : String) (env : AddEnv) (s : Store) : Store :=
  let habit := Habit.mk (generateId env.idClock env.randomDigits) (trim name) env.createdClock
  saveData (Store.mk (AppData.mk (s.appData.habits ++ [habit]) s.appData.tracking) s.localStorage)

/-- The part of the page that `handleSave` reads and writes: the text field,
`editingHabitId` (line 25) and whether the habit dialog is shown. -/
structure UI where
  habitInput : String
  editingHabitId : Option String
  habitModalActive : Bool
deriving DecidableEq, Repr

/-- Lines 261-264. -/
def closeModal (ui : UI) : UI :=
  UI.mk ui.habitInput none false

/-- Lines 270-281.  An empty string is falsy, both for the name and for
`editingHabitId`. -/
def handleSave (env : AddEnv) (ui : UI) (s : Store) : UI × Store :=
  let name := trim ui.habitInput
  if name = "" then (ui, s)
  else
    match ui.editingHabitId with
    | some id =>
      if id = "" then (closeModal ui, addHabit name env s)
      else (closeModal ui, (updateHabit id name s).1)
    | none => (closeModal ui, addHabit name env s)

/-! ## Date keys -/

/-- Milliseconds in a day. -/
def msPerDay : Int := 86400000

/-- Proleptic Gregorian year, month and day of a day number counted from
1970-01-01 (the `YearFromTime`, `MonthFromTime`, `DateFromTime` of ECMAScript). -/
def civilFromDays (days : Int) : Int × Int × Int :=
  let z := days + 719468
  let era := z / 146097
  let doe := z % 146097
  let yoe := (doe - doe / 1460 + doe / 36524 - doe / 146096) / 365
  let doy := doe - (365 * yoe + yoe / 4 - yoe / 100)
  let mp := (5 * doy + 2) / 153
  let d := doy - (153 * mp + 2) / 5 + 1
  let m := if mp < 10 then mp + 3 else mp - 9
  (yoe + era * 400 + (if m ≤ 2 then 1 else 0), m, d)

/-- The last `width` decimal digits of `n`, with leading zeros. -/
def padDigits : Nat → Nat → List Char
  | 0, _ => []
  | width + 1, n => padDigits width (n / 10) ++ [Char.ofNat (48 + n % 10)]

/-- Year field of `toISOString`: four digits, or a sign and six digits outside 0..9999. -/
def isoYear (y : Int) : List Char :=
  if 0 ≤ y ∧ y ≤ 9999 then padDigits 4 y.natAbs
  else (if y < 0 then '-' else '+') :: padDigits 6 y.natAbs

/-- Lines 73-75: `date.toISOString().split('T')[0]`, the UTC calendar date of
the time value `t`. -/
def formatDateKey (t : Int) : String :=
  match civilFromDays (t / msPerDay) with
  | (y, m, d) => String.mk (isoYear y ++ '-' :: padDigits 2 m.natAbs ++ '-' :: padDigits 2 d.natAbs)

/-- Local time value in a zone `tzMinutes` minutes east of UTC. -/
def localTime (tzMinutes : Int) (t : Int) : Int :=
  t + tzMinutes * 60000

/-- Effect of `setHours(0, 0, 0, 0)`: the instant of local midnight of the
local day of `t`. -/
def localMidnight (tzMinutes : Int) (t : Int) : Int :=
  t - localTime tzMinutes t % msPerDay

/-- The constant of line 3. -/
def DAYS_TO_SHOW : Nat := 30

/-- Lines 59-70, in a zone with a constant offset: local midnight of today and
of the days before it. -/
def getDates (tzMinutes : Int) (now : Int) : List Int :=
  (List.range DAYS_TO_SHOW).map (fun i => localMidnight tzMinutes now - (i : Int) * msPerDay)

/-- The local calendar day of `t` (its number counted from 1970-01-01). -/
def localDay (tzMinutes : Int) (t : Int) : Int :=
  localTime tzMinutes t / msPerDay

/-- The `YYYY-MM-DD` form of the local calendar day of `t`, as the
specification words the date key. -/
def localDateKey (tzMinutes : Int) (t : Int) : String :=
  formatDateKey (localTime tzMinutes t)

/-! ## `JSON.parse` and `loadData` -/

/-- JSON white space. -/
def isJsonWs (c : Char) : Bool :=
  decide (c.toNat = 32 ∨ c.toNat = 9 ∨ c.toNat = 10 ∨ c.toNat = 13)

/-- The text after leading white space. -/
def skipWs (cs : List Char) : List Char :=
  cs.dropWhile isJsonWs

/-- Decimal digit characters. -/
def isDigit (c : Char) : Bool :=
  decide (48 ≤ c.toNat ∧ c.toNat ≤ 57)

/-- Value of a run of decimal digits. -/
def digitsValue (ds : List Char) : Nat :=
  ds.foldl (fun a c => 10 * a + (c.toNat - 48)) 0

/-- Value of a hexadecimal digit, either case. -/
def hexValue (c : Char) : Option Nat :=
  if 48 ≤ c.toNat ∧ c.toNat ≤ 57 then some (c.toNat - 48)
  else if 97 ≤ c.toNat ∧ c.toNat ≤ 102 then some (c.toNat - 87)
  else if 65 ≤ c.toNat ∧ c.toNat ≤ 70 then some (c.toNat - 55)
  else none

/-- Four hexadecimal digits of a `\u` escape. -/
def hex4 : List Char → Option (Nat × List Char)
  | a :: b :: c :: d :: rest =>
    match hexValue a, hexValue b, hexValue c, hexValue d with
    | some x, some y, some z, some w => some (4096 * x + 256 * y + 16 * z + w, rest)
    | _, _, _, _ => none
  | _ => none

/-- A `\u` escape of a low surrogate directly ahead, if there is one. -/
def lowSurrogate : List Char → Option (Nat × List Char)
  | b :: u :: rest =>
    if b = '\\' ∧ u = 'u' then
      match hex4 rest with
      | some (m, r) => if 56320 ≤ m ∧ m ≤ 57343 then some (m, r) else none
      | none => none
    else none
  | _ => none

/-- The character of a one-letter escape. -/
def simpleEscape (e : Char) : Option Char :=
  if e = '"' then some '"'
  else if e = '\\' then some '\\'
  else if e = '/' then some '/'
  else if e = 'b' then some (Char.ofNat 8)
  else if e = 'f' then some (Char.ofNat 12)
  else if e = 'n' then some (Char.ofNat 10)
  else if e = 'r' then some (Char.ofNat 13)
  else if e = 't' then some (Char.ofNat 9)
  else none

/-- Put a character in front of a parsed string body. -/
def pushChar (c : Char) (r : Option (List Char × List Char)) : Option (List Char × List Char) :=
  r.map (fun p => (c :: p.1, p.2))

/-- The characters of a string literal after its opening quote, up to and
including the closing quote; returns the string and the text that follows.
Two `\u` escapes that form a surrogate pair give one character; an unpaired
surrogate escape, which a Lean string cannot hold, is read as U+FFFD. -/
def parseStringBody : Nat → List Char → Option (List Char × List Char)
  | 0, _ => none
  | fuel + 1, cs =>
    match cs with
    | [] => none
    | c :: rest =>
      if c = '"' then some ([], rest)
      else if c = '\\' then
        match rest with
        | [] => none
        | e :: r =>
          if e = 'u' then
            match hex4 r with
            | none => none
            | some (n, r1) =>
              if 55296 ≤ n ∧ n ≤ 56319 then
                match lowSurrogate r1 with
                | some (m, r2) =>
                  pushChar (Char.ofNat (65536 + (n - 55296) * 1024 + (m - 56320)))
                    (parseStringBody fuel r2)
                | none => pushChar (Char.ofNat 65533) (parseStringBody fuel r1)
              else if 56320 ≤ n ∧ n ≤ 57343 then
                pushChar (Char.ofNat 65533) (parseStringBody fuel r1)
              else pushChar (Char.ofNat n) (parseStringBody fuel r1)
          else
            match simpleEscape e with
            | some ch => pushChar ch (parseStringBody fuel r)
            | none => none
      else if c.toNat < 32 then none
      else pushChar c (parseStringBody fuel rest)

/-- The optional fraction part of a number: its digits and the text after it. -/
def parseFraction : List Char → Option (List Char × List Char)
  | [] => some ([], [])
  | c :: r =>
    if c = '.' then
      if r.takeWhile isDigit = [] then none
      else some (r.takeWhile isDigit, r.dropWhile isDigit)
    else some ([], c :: r)

/-- A run of exponent digits with its sign applied. -/
def exponentDigits (sign : Int) (r : List Char) : Option (Int × List Char) :=
  if r.takeWhile isDigit = [] then none
  else some (sign * (digitsValue (r.takeWhile isDigit) : Int), r.dropWhile isDigit)

/-- The optional exponent part of a number: its value and the text after it. -/
def parseExponent : List Char → Option (Int × List Char)
  | [] => some (0, [])
  | c :: r =>
    if c = 'e' ∨ c = 'E' then
      match r with
      | [] => none
      | s :: r1 =>
        if s = '-' then exponentDigits (-1) r1
        else if s = '+' then exponentDigits 1 r1
        else exponentDigits 1 (s :: r1)
    else some (0, c :: r)

/-- An unsigned JSON number: integer digits without a superfluous leading
zero, then the optional fraction and exponent. -/
def parseUnsigned (cs : List Char) : Option (ℚ × List Char) :=
  if cs.takeWhile isDigit = [] then none
  else if 1 < (cs.takeWhile isDigit).length ∧ (cs.takeWhile isDigit).head? = some '0' then none
  else
    match parseFraction (cs.dropWhile isDigit) with
    | none => none
    | some (fd, r1) =>
      match parseExponent r1 with
      | none => none
      | some (e, r2) =>
        some ((((digitsValue (cs.takeWhile isDigit) : Nat) : ℚ)
          + ((digitsValue fd : Nat) : ℚ) / (10 : ℚ) ^ fd.length) * (10 : ℚ) ^ e, r2)

/-- A JSON number with its optional minus sign. -/
def parseNumber : List Char → Option (ℚ × List Char)
  | [] => none
  | c :: r =>
    if c = '-' then (parseUnsigned r).map (fun p => (-p.1, p.2))
    else parseUnsigned (c :: r)

/-- The text after the given characters, if the text starts with them. -/
def expectChars : List Char → List Char → Option (List Char)
  | [], cs => some cs
  | _ :: _, [] => none
  | p :: ps, c :: cs => if p = c then expectChars ps cs else none

mutual
/-- One JSON value and the text after it. -/
def parseValue : Nat → List Char → Option (JSValue × List Char)
  | 0, _ => none
  | fuel + 1, cs =>
    match skipWs cs with
    | [] => none
    | c :: r =>
      if c = 'n' then (expectChars ['u', 'l', 'l'] r).map (fun r1 => (JSValue.null, r1))
      else if c = 't' then
        (expectChars ['r', 'u', 'e'] r).map (fun r1 => (JSValue.bool true, r1))
      else if c = 'f' then
        (expectChars ['a', 'l', 's', 'e'] r).map (fun r1 => (JSValue.bool false, r1))
      else if c = '"' then
        (parseStringBody r.length r).map (fun p => (JSValue.str (String.mk p.1), p.2))
      else if c = '[' then
        match skipWs r with
        | [] => none
        | c1 :: r1 =>
          if c1 = ']' then some (JSValue.arr [], r1) else parseElements fuel (c1 :: r1) []
      else if c = '{' then
        match skipWs r with
        | [] => none
        | c1 :: r1 =>
          if c1 = '}' then some (JSValue.obj [], r1) else parseMembers fuel (c1 :: r1) []
      else if c = '-' ∨ isDigit c = true then
        (parseNumber (c :: r)).map (fun p => (JSValue.num p.1, p.2))
      else none
/-- The elements of an array from one element on, up to the closing bracket;
`acc` holds the elements already read. -/
def parseElements : Nat → List Char → List JSValue → Option (JSValue × List Char)
  | 0, _, _ => none
  | fuel + 1, cs, acc =>
    match parseValue fuel cs with
    | none => none
    | some (v, r) =>
      match skipWs r with
      | [] => none
      | c :: r1 =>
        if c = ',' then parseElements fuel r1 (acc ++ [v])
        else if c = ']' then some (JSValue.arr (acc ++ [v]), r1)
        else none
/-- The members of an object from one member on, up to the closing brace;
`acc` holds the properties already defined.  A repeated name overwrites. -/
def parseMembers : Nat → List Char → List (String × JSValue) → Option (JSValue × List Char)
  | 0, _, _ => none
  | fuel + 1, cs, acc =>
    match skipWs cs with
    | [] => none
    | q :: r =>
      if q = '"' then
        match parseStringBody r.length r with
        | none => none
        | some (k, r1) =>
          match skipWs r1 with
          | [] => none
          | c :: r2 =>
            if c = ':' then
              match parseValue fuel r2 with
              | none => none
              | some (v, r3) =>
                match skipWs r3 with
                | [] => none
                | d :: r4 =>
                  if d = ',' then parseMembers fuel r4 (objSet acc (String.mk k) v)
                  else if d = '}' then some (JSValue.obj (objSet acc (String.mk k) v), r4)
                  else none
            else none
      else none
end

/-- The call `JSON.parse(text)`; `none` when it throws a `SyntaxError`.  The
fuel is more than a text of this length can use (`jsonParse_fuel`). -/
def jsonParse (text : String) : Option JSValue :=
  match parseValue (2 * text.length + 2) text.data with
  | none => none
  | some (v, rest) => if skipWs rest = [] then some v else none

/-- Lines 36-46.  `current` is the value of `appData` before the call; the
result is its value afterwards.  `getItem` gives `null` for a missing key, and
both `null` and the empty string are falsy. -/
def loadData (current : JSValue) (localStorage : JSObject String) : JSValue :=
  match objGet localStorage STORAGE_KEY with
  | none => current
  | some stored =>
    if stored = "" then current
    else
      match jsonParse stored with
      | some v => v
      | none => toJS emptyAppData

/-! ## Properties named by the specification -/

/-- The specification's wording of the cascade of `deleteHabit`: the id is
removed from every day's set, then the days left with an empty set are dropped. -/
def cascadeRemove (id : String) (t : JSObject (JSObject Bool)) : JSObject (JSObject Bool) :=
  (t.map (fun p => (p.1, objDelete p.2 id))).filter (fun p => decide (objKeys p.2 ≠ []))

/-- The non-empty-set invariant: every date key of `tracking` maps to a
non-empty set of habit ids. -/
def NonEmptyDays (t : JSObject (JSObject Bool)) : Prop :=
  ∀ p ∈ t, objKeys p.2 ≠ []

instance (t : JSObject (JSObject Bool)) : Decidable (NonEmptyDays t) := by
  unfold NonEmptyDays
  infer_instance

/-- A call of one of the four mutation operations, with its arguments. -/
inductive Call where
  | add (name : String) (env : AddEnv)
  | update (id newName : String)
  | delete (id : String)
  | toggle (dateKey habitId : String) (checked : Bool)
deriving DecidableEq

/-- The call is not a `toggleTracking` with the habit id `__proto__`, the one
name that an assignment cannot give to a plain object. -/
def protoFree : Call → Prop
  | .toggle _ habitId _ => habitId ≠ "__proto__"
  | _ => True

instance (c : Call) : Decidable (protoFree c) := by
  cases c <;> unfold protoFree <;> infer_instance

/-- The state after a call, `none` if the call throws. -/
def runCall : Call → Store → Option Store
  | .add name env, s => some (addHabit name env s)
  | .update id newName, s => some (updateHabit id newName s).1
  | .delete id, s => (deleteHabit id s).map Prod.fst
  | .toggle dateKey habitId checked, s => toggleTracking dateKey habitId checked s

/-- Values whose text `JSON.parse` reads back unchanged: numbers are integers
and the property names of every object are distinct. -/
inductive Plain : JSValue → Prop where
  | null : Plain JSValue.null
  | bool (b : Bool) : Plain (JSValue.bool b)
  | num (q : ℚ) (h : q.den = 1) : Plain (JSValue.num q)
  | str (s : String) : Plain (JSValue.str s)
  | arr (items : List JSValue) (h : ∀ x ∈ items, Plain x) : Plain (JSValue.arr items)
  | obj (props : List (String × JSValue)) (hk : (props.map Prod.fst).Nodup)
      (h : ∀ p ∈ props, Plain p.2) : Plain (JSValue.obj props)

/-- Text in front of which a number ends: the empty text, or a first character
that cannot continue a number. -/
def numberEnds : List Char → Prop
  | [] => True
  | c :: _ => isDigit c = false ∧ c ≠ '.' ∧ c ≠ 'e' ∧ c ≠ 'E'

/-- The parser reads the text of `v` back: given fuel for the length of the
text, and followed by text at which a number ends, `parseValue` returns `v`
and the text that follows. -/
def ReadsBack (v : JSValue) : Prop :=
  ∀ (fuel : Nat) (rest : List Char), (stringifyValue v).length ≤ fuel → numberEnds rest →
    parseValue fuel (stringifyValue v ++ rest) = some (v, rest)

/-! ## Facts about property access -/

theorem objDelete_nil {α : Type} (k : String) : objDelete ([] : JSObject α) k = [] := rfl

theorem objDelete_cons_self {α : Type} (rest : JSObject α) (k : String) (v : α) :
    objDelete ((k, v) :: rest) k = objDelete rest k := by
  simp [objDelete, List.filter_cons]

theorem objDelete_cons_other {α : Type} (rest : JSObject α) (k k2 : String) (v : α)
    (h : k2 ≠ k) : objDelete ((k2, v) :: rest) k = (k2, v) :: objDelete rest k := by
  simp [objDelete, List.filter_cons, h]

theorem objKeys_cons {α : Type} (rest : JSObject α) (k : String) (v : α) :
    objKeys ((k, v) :: rest) = k :: objKeys rest := rfl

theorem objGet_objSet_self {α : Type} (o : JSObject α) (k : String) (v : α) :
    objGet (objSet o k v) k = some v := by
  induction o with
  | nil => simp [objSet, objGet]
  | cons p rest ih =>
    obtain ⟨k', v'⟩ := p
    by_cases h : k' = k
    · simp [objSet, objGet, h]
    · simp [objSet, objGet, h, ih]

theorem objGet_objSet_other {α : Type} (o : JSObject α) (k k2 : String) (v : α) (h : k2 ≠ k) :
    objGet (objSet o k v) k2 = objGet o k2 := by
  induction o with
  | nil => simp [objSet, objGet, h.symm]
  | cons p rest ih =>
    obtain ⟨k', v'⟩ := p
    by_cases h1 : k' = k
    · subst h1
      simp [objSet, objGet, h.symm]
    · by_cases h2 : k' = k2
      · subst h2
        simp [objSet, objGet, h1]
      · simp [objSet, objGet, h1, h2, ih]

theorem objSet_of_objGet {α : Type} (o : JSObject α) (k : String) (v : α)
    (h : objGet o k = some v) : objSet o k v = o := by
  induction o with
  | nil => simp [objGet] at h
  | cons p rest ih =>
    obtain ⟨k', v'⟩ := p
    by_cases h1 : k' = k
    · simp [objGet, h1] at h
      simp [objSet, h1, h]
    · simp [objGet, h1] at h
      simp [objSet, h1, ih h]

theorem objSet_objSet_self {α : Type} (o : JSObject α) (k : String) (v w : α) :
    objSet (objSet o k v) k w = objSet o k w := by
  induction o with
  | nil => simp [objSet]
  | cons p rest ih =>
    obtain ⟨k', v'⟩ := p
    by_cases h1 : k' = k
    · simp [objSet, h1]
    · simp [objSet, h1, ih]

theorem objGet_eq_none_iff {α : Type} (o : JSObject α) (k : String) :
    objGet o k = none ↔ k ∉ objKeys o := by
  induction o with
  | nil => simp [objGet, objKeys]
  | cons p rest ih =>
    obtain ⟨k', v'⟩ := p
    by_cases h1 : k' = k
    · simp [objGet, objKeys, h1]
    · have h2 : ¬ k = k' := fun e => h1 e.symm
      simp only [objKeys] at ih
      simp [objGet, objKeys, h1, h2, ih]

theorem objGet_mem {α : Type} (o : JSObject α) (k : String) (v : α)
    (h : objGet o k = some v) : (k, v) ∈ o := by
  induction o with
  | nil => simp [objGet] at h
  | cons p rest ih =>
    obtain ⟨k', v'⟩ := p
    by_cases h1 : k' = k
    · simp [objGet, h1] at h
      simp [h1, h]
    · simp [objGet, h1] at h
      simp [ih h]

theorem objGet_of_mem {α : Type} (o : JSObject α) (k : String) (v : α)
    (hn : (objKeys o).Nodup) (h : (k, v) ∈ o) : objGet o k = some v := by
  induction o with
  | nil => simp at h
  | cons p rest ih =>
    obtain ⟨k', v'⟩ := p
    simp only [objKeys, List.map_cons, List.nodup_cons] at hn
    rcases List.mem_cons.mp h with h1 | h1
    · cases h1
      simp [objGet]
    · have hk : k ∈ rest.map Prod.fst := List.mem_map.mpr ⟨(k, v), h1, rfl⟩
      have h2 : k' ≠ k := fun e => hn.1 (e ▸ hk)
      simp [objGet, h2, ih hn.2 h1]

theorem objKeys_objDelete {α : Type} (o : JSObject α) (k : String) :
    objKeys (objDelete o k) = (objKeys o).filter (fun x => decide (x ≠ k)) := by
  induction o with
  | nil => simp [objDelete, objKeys]
  | cons p rest ih =>
    obtain ⟨k', v'⟩ := p
    by_cases h1 : k' = k
    · subst h1
      rw [objDelete_cons_self, objKeys_cons, ih]
      simp [List.filter_cons]
    · rw [objDelete_cons_other _ _ _ _ h1, objKeys_cons, objKeys_cons, ih]
      simp [List.filter_cons, h1]

theorem objGet_objDelete_self {α : Type} (o : JSObject α) (k : String) :
    objGet (objDelete o k) k = none := by
  rw [objGet_eq_none_iff, objKeys_objDelete]
  simp

theorem objGet_objDelete_other {α : Type} (o : JSObject α) (k k2 : String) (h : k2 ≠ k) :
    objGet (objDelete o k) k2 = objGet o k2 := by
  induction o with
  | nil => simp [objDelete, objGet]
  | cons p rest ih =>
    obtain ⟨k', v'⟩ := p
    by_cases h1 : k' = k
    · subst h1
      rw [objDelete_cons_self, ih]
      simp [objGet, h.symm]
    · rw [objDelete_cons_other _ _ _ _ h1]
      by_cases h2 : k' = k2
      · simp [objGet, h2]
      · simp [objGet, h2, ih]

theorem objDelete_objSet_self {α : Type} (o : JSObject α) (k : String) (v : α) :
    objDelete (objSet o k v) k = objDelete o k := by
  induction o with
  | nil => simp [objSet, objDelete]
  | cons p rest ih =>
    obtain ⟨k', v'⟩ := p
    by_cases h1 : k' = k
    · subst h1
      simp [objSet, objDelete_cons_self]
    · simp [objSet, h1, objDelete_cons_other _ _ _ _ h1, ih]

theorem objKeys_objSet_of_mem {α : Type} (o : JSObject α) (k : String) (v : α)
    (h : k ∈ objKeys o) : objKeys (objSet o k v) = objKeys o := by
  induction o with
  | nil => simp [objKeys] at h
  | cons p rest ih =>
    obtain ⟨k', v'⟩ := p
    by_cases h1 : k' = k
    · simp [objSet, objKeys, h1]
    · have h2 : k ∈ objKeys rest := by
        simp only [objKeys, List.map_cons, List.mem_cons] at h
        rcases h with h | h
        · exact absurd h.symm h1
        · exact h
      have := ih h2
      simp only [objKeys] at this
      simp [objSet, objKeys, h1, this]

theorem objSet_of_not_mem {α : Type} (o : JSObject α) (k : String) (v : α)
    (h : k ∉ objKeys o) : objSet o k v = o ++ [(k, v)] := by
  induction o with
  | nil => simp [objSet]
  | cons p rest ih =>
    obtain ⟨k', v'⟩ := p
    simp only [objKeys, List.map_cons, List.mem_cons, not_or] at h
    have h1 : ¬ k' = k := fun e => h.1 e.symm
    simp [objSet, h1, ih h.2]

theorem objDelete_of_not_mem {α : Type} (o : JSObject α) (k : String)
    (h : k ∉ objKeys o) : objDelete o k = o := by
  induction o with
  | nil => simp [objDelete]
  | cons p rest ih =>
    obtain ⟨k', v'⟩ := p
    simp only [objKeys, List.map_cons, List.mem_cons, not_or] at h
    have h1 : ¬ k' = k := fun e => h.1 e.symm
    rw [objDelete_cons_other _ _ _ _ h1, ih h.2]

theorem objGet_append_of_not_mem {α : Type} (pre suf : JSObject α) (k : String)
    (h : k ∉ objKeys pre) : objGet (pre ++ suf) k = objGet suf k := by
  induction pre with
  | nil => rfl
  | cons p rest ih =>
    obtain ⟨k', v'⟩ := p
    simp only [objKeys, List.map_cons, List.mem_cons, not_or] at h
    have h1 : ¬ k' = k := fun e => h.1 e.symm
    simp [objGet, h1, ih h.2]

theorem objSet_append_of_not_mem {α : Type} (pre suf : JSObject α) (k : String) (v : α)
    (h : k ∉ objKeys pre) : objSet (pre ++ suf) k v = pre ++ objSet suf k v := by
  induction pre with
  | nil => rfl
  | cons p rest ih =>
    obtain ⟨k', v'⟩ := p
    simp only [objKeys, List.map_cons, List.mem_cons, not_or] at h
    have h1 : ¬ k' = k := fun e => h.1 e.symm
    simp [objSet, h1, ih h.2]

theorem objDelete_append {α : Type} (pre suf : JSObject α) (k : String) :
    objDelete (pre ++ suf) k = objDelete pre k ++ objDelete suf k := by
  simp [objDelete]

/-! ## Persistence after a mutation -/

theorem saveData_appData (s : Store) : (saveData s).appData = s.appData := rfl

theorem saveData_saveData (s : Store) : saveData (saveData s) = saveData s := by
  simp [saveData, objSet_objSet_self]

/-! ## toggleTracking -/

theorem objRead_of_objGet {α : Type} (o : JSObject α) (k : String) (v : α)
    (h : objGet o k = some v) : objRead o k = Lookup.own v := by
  simp [objRead, h]

theorem objRead_objSet_self {α : Type} (o : JSObject α) (k : String) (v : α) :
    objRead (objSet o k v) k = Lookup.own v :=
  objRead_of_objGet _ _ _ (objGet_objSet_self o k v)

theorem objGet_of_objRead_own {α : Type} (o : JSObject α) (k : String) (v : α)
    (h : objRead o k = Lookup.own v) : objGet o k = some v := by
  unfold objRead at h
  cases hg : objGet o k with
  | none =>
    rw [hg] at h
    simp only at h
    split at h <;> simp at h
  | some w =>
    rw [hg] at h
    simp only [Lookup.own.injEq] at h
    rw [h]

theorem objGet_of_objRead_not_own {α : Type} (o : JSObject α) (k : String)
    (h : ∀ v, objRead o k ≠ Lookup.own v) : objGet o k = none := by
  cases hg : objGet o k with
  | none => rfl
  | some w => exact absurd (objRead_of_objGet o k w hg) (h w)

theorem objAssign_objAssign {α : Type} (o : JSObject α) (k : String) (v : α) :
    objAssign (objAssign o k v) k v = objAssign o k v := by
  by_cases h : (objGet o k).isNone ∧ k = "__proto__"
  · have h1 : objAssign o k v = o := by simp only [objAssign, if_pos h]
    rw [h1, h1]
  · have h1 : objAssign o k v = objSet o k v := by simp only [objAssign, if_neg h]
    have h2 : ¬ ((objGet (objSet o k v) k).isNone ∧ k = "__proto__") := by
      simp [objGet_objSet_self]
    rw [h1]
    simp only [objAssign, if_neg h2, objSet_objSet_self]

theorem objAssign_of_ne {α : Type} (o : JSObject α) (k : String) (v : α)
    (h : k ≠ "__proto__") : objAssign o k v = objSet o k v := by
  simp [objAssign, h]

/-- What a call with `checked = true` does to `tracking`: it completes, and a
second call from the resulting tracking (with whatever is stored) gives the
same tracking again. -/
theorem toggleTracking_true_stable (dateKey habitId : String) (s : Store) :
    ∃ t, toggleTracking dateKey habitId true s
        = some (saveData (Store.mk (AppData.mk s.appData.habits t) s.localStorage))
      ∧ ∀ ls, toggleTracking dateKey habitId true (Store.mk (AppData.mk s.appData.habits t) ls)
        = some (saveData (Store.mk (AppData.mk s.appData.habits t) ls)) := by
  cases hr : objRead s.appData.tracking dateKey with
  | own day =>
    have hg := objGet_of_objRead_own _ _ _ hr
    refine ⟨objSet s.appData.tracking dateKey (objAssign day habitId true), ?_, ?_⟩
    · simp [toggleTracking, hr]
    · intro ls
      have e : objSet (objSet s.appData.tracking dateKey (objAssign day habitId true)) dateKey
          (objAssign (objAssign day habitId true) habitId true)
          = objSet s.appData.tracking dateKey (objAssign day habitId true) := by
        rw [objAssign_objAssign, objSet_objSet_self]
      simp [toggleTracking, objRead_objSet_self, e]
  | inherited =>
    refine ⟨s.appData.tracking, ?_, ?_⟩
    · simp [toggleTracking, hr]
    · intro ls
      simp [toggleTracking, hr]
  | absent =>
    refine ⟨objSet s.appData.tracking dateKey (objAssign [] habitId true), ?_, ?_⟩
    · simp [toggleTracking, hr, objRead_objSet_self, objSet_objSet_self]
    · intro ls
      have e : objSet (objSet s.appData.tracking dateKey (objAssign [] habitId true)) dateKey
          (objAssign (objAssign [] habitId true) habitId true)
          = objSet s.appData.tracking dateKey (objAssign [] habitId true) := by
        rw [objAssign_objAssign, objSet_objSet_self]
      simp [toggleTracking, objRead_objSet_self, e]

/-- A call with `checked = true` records the habit under the date key, when
the date key is not a name that `tracking` only inherits and the habit id is
not `__proto__`. -/
theorem toggleTracking_true_records (dateKey habitId : String) (s : Store)
    (hd : objRead s.appData.tracking dateKey ≠ Lookup.inherited)
    (hproto : habitId ≠ "__proto__") :
    ∃ s1 day, toggleTracking dateKey habitId true s = some s1
      ∧ objGet s1.appData.tracking dateKey = some day ∧ objGet day habitId = some true := by
  cases hr : objRead s.appData.tracking dateKey with
  | own day =>
    refine ⟨saveData (Store.mk (AppData.mk s.appData.habits
      (objSet s.appData.tracking dateKey (objSet day habitId true))) s.localStorage),
      objSet day habitId true, ?_, objGet_objSet_self _ _ _, objGet_objSet_self _ _ _⟩
    simp [toggleTracking, hr, objAssign_of_ne _ _ _ hproto]
  | inherited => exact absurd hr hd
  | absent =>
    refine ⟨saveData (Store.mk (AppData.mk s.appData.habits
      (objSet s.appData.tracking dateKey (objSet [] habitId true))) s.localStorage),
      objSet [] habitId true, ?_, objGet_objSet_self _ _ _, objGet_objSet_self _ _ _⟩
    simp [toggleTracking, hr, objRead_objSet_self, objSet_objSet_self,
      objAssign_of_ne _ _ _ hproto]

/-- C7.  Checking a box twice is the same as checking it once: the first call
of `toggleTracking(dateKey, habitId, true)` completes with some state, and the
second call, started from that state, completes with the very same state
(habits, tracking and the stored text). -/
theorem toggleTracking_true_idempotent (dateKey habitId : String) (s : Store) :
    ∃ s1, toggleTracking dateKey habitId true s = some s1
      ∧ toggleTracking dateKey habitId true s1 = some s1 := by
  obtain ⟨t, h1, h2⟩ := toggleTracking_true_stable dateKey habitId s
  refine ⟨_, h1, ?_⟩
  have h3 := h2 (saveData (Store.mk (AppData.mk s.appData.habits t) s.localStorage)).localStorage
  have e : Store.mk (AppData.mk s.appData.habits t)
      (saveData (Store.mk (AppData.mk s.appData.habits t) s.localStorage)).localStorage
      = saveData (Store.mk (AppData.mk s.appData.habits t) s.localStorage) := rfl
  rw [e, saveData_saveData] at h3
  exact h3

/-- C8.  When `tracking[dateKey]` holds `habitId` and nothing else, unchecking
it completes and removes `dateKey` from `tracking`: the key is not among the
keys afterwards (it is not left mapped to an empty object), the other entries
are the old ones in the old order, every other date key reads as before, and
the habits are untouched. -/
theorem toggleTracking_false_removes_last (dateKey habitId : String) (s : Store)
    (day : JSObject Bool) (hday : objGet s.appData.tracking dateKey = some day)
    (hkeys : objKeys day = [habitId]) :
    ∃ s1, toggleTracking dateKey habitId false s = some s1
      ∧ dateKey ∉ objKeys s1.appData.tracking
      ∧ objGet s1.appData.tracking dateKey = none
      ∧ s1.appData.tracking = s.appData.tracking.filter (fun p => decide (p.1 ≠ dateKey))
      ∧ (∀ k, k ≠ dateKey → objGet s1.appData.tracking k = objGet s.appData.tracking k)
      ∧ s1.appData.habits = s.appData.habits := by
  have hdel : objDelete day habitId = [] := by
    have h := objKeys_objDelete day habitId
    rw [hkeys] at h
    simp [objKeys] at h
    exact h
  refine ⟨saveData (Store.mk (AppData.mk s.appData.habits (objDelete s.appData.tracking dateKey))
    s.localStorage), ?_, ?_, ?_, ?_, ?_, ?_⟩
  · simp [toggleTracking, objRead_of_objGet _ _ _ hday, hdel, objRead_objSet_self, objKeys,
      objDelete_objSet_self]
  · rw [← objGet_eq_none_iff]
    exact objGet_objDelete_self _ _
  · exact objGet_objDelete_self _ _
  · rfl
  · intro k hk
    exact objGet_objDelete_other _ _ _ hk
  · rfl

/-- C8, at a concrete state: one habit, checked on one day only. -/
theorem toggleTracking_false_removes_last_witness :
    ∃ s1, toggleTracking "2024-01-02" "A" false
        (Store.mk (AppData.mk [Habit.mk "A" "run" 1]
          [("2024-01-01", [("A", true)]), ("2024-01-02", [("A", true)])]) []) = some s1
      ∧ "2024-01-02" ∉ objKeys s1.appData.tracking
      ∧ objGet s1.appData.tracking "2024-01-02" = none
      ∧ s1.appData.tracking
          = [("2024-01-01", [("A", true)]), ("2024-01-02", [("A", true)])].filter
              (fun p => decide (p.1 ≠ "2024-01-02"))
      ∧ (∀ k, k ≠ "2024-01-02" → objGet s1.appData.tracking k
          = objGet [("2024-01-01", [("A", true)]), ("2024-01-02", [("A", true)])] k)
      ∧ s1.appData.habits = [Habit.mk "A" "run" 1] :=
  toggleTracking_false_removes_last "2024-01-02" "A"
    (Store.mk (AppData.mk [Habit.mk "A" "run" 1]
      [("2024-01-01", [("A", true)]), ("2024-01-02", [("A", true)])]) [])
    [("A", true)] (by decide) (by decide)

/-! ## deleteHabit -/

theorem objKeys_append {α : Type} (a b : JSObject α) :
    objKeys (a ++ b) = objKeys a ++ objKeys b := by
  simp [objKeys]

theorem cascadeRemove_nil (id : String) : cascadeRemove id [] = [] := rfl

theorem cascadeRemove_cons_empty (id k : String) (day : JSObject Bool)
    (rest : JSObject (JSObject Bool)) (h : objKeys (objDelete day id) = []) :
    cascadeRemove id ((k, day) :: rest) = cascadeRemove id rest := by
  simp [cascadeRemove, List.filter_cons, h]

theorem cascadeRemove_cons_nonempty (id k : String) (day : JSObject Bool)
    (rest : JSObject (JSObject Bool)) (h : objKeys (objDelete day id) ≠ []) :
    cascadeRemove id ((k, day) :: rest) = (k, objDelete day id) :: cascadeRemove id rest := by
  simp [cascadeRemove, List.filter_cons, h]

theorem deleteHabitStep_at (id k : String) (day : JSObject Bool)
    (pre rest : JSObject (JSObject Bool)) (hpre : k ∉ objKeys pre) (hrest : k ∉ objKeys rest) :
    deleteHabitStep id (some (pre ++ (k, day) :: rest)) k
      = some (if objKeys (objDelete day id) = [] then pre ++ rest
          else pre ++ (k, objDelete day id) :: rest) := by
  have h1 : objGet (pre ++ (k, day) :: rest) k = some day := by
    rw [objGet_append_of_not_mem _ _ _ hpre]
    simp [objGet]
  have h2 : objSet (pre ++ (k, day) :: rest) k (objDelete day id)
      = pre ++ (k, objDelete day id) :: rest := by
    rw [objSet_append_of_not_mem _ _ _ _ hpre]
    simp [objSet]
  have h3 : objGet (pre ++ (k, objDelete day id) :: rest) k = some (objDelete day id) := by
    rw [objGet_append_of_not_mem _ _ _ hpre]
    simp [objGet]
  have h4 : objDelete (pre ++ (k, objDelete day id) :: rest) k = pre ++ rest := by
    rw [objDelete_append, objDelete_cons_self, objDelete_of_not_mem _ _ hpre,
      objDelete_of_not_mem _ _ hrest]
  simp only [deleteHabitStep, Option.some_bind, h1, h2, h3, Option.map_some', h4,
    List.length_eq_zero]

theorem deleteHabit_fold (id : String) :
    ∀ (suf pre : JSObject (JSObject Bool)), (objKeys (pre ++ suf)).Nodup →
      (objKeys suf).foldl (deleteHabitStep id) (some (pre ++ suf))
        = some (pre ++ cascadeRemove id suf) := by
  intro suf
  induction suf with
  | nil => intro pre _; simp [objKeys, cascadeRemove_nil]
  | cons p rest ih =>
    intro pre hn
    obtain ⟨k, day⟩ := p
    rw [objKeys_append, objKeys_cons] at hn
    have hpre : k ∉ objKeys pre := by
      intro hmem
      have := (List.nodup_append.mp hn).2.2
      exact this hmem (List.mem_cons_self _ _)
    have hrest : k ∉ objKeys rest :=
      (List.nodup_cons.mp (List.nodup_append.mp hn).2.1).1
    rw [objKeys_cons, List.foldl_cons, deleteHabitStep_at id k day pre rest hpre hrest]
    by_cases he : objKeys (objDelete day id) = []
    · rw [if_pos he, cascadeRemove_cons_empty _ _ _ _ he]
      apply ih
      rw [objKeys_append]
      exact (List.nodup_cons.mp (List.nodup_middle.mp hn)).2
    · rw [if_neg he, cascadeRemove_cons_nonempty _ _ _ _ he]
      have e : pre ++ (k, objDelete day id) :: rest = (pre ++ [(k, objDelete day id)]) ++ rest := by
        simp
      have e2 : pre ++ (k, objDelete day id) :: cascadeRemove id rest
          = (pre ++ [(k, objDelete day id)]) ++ cascadeRemove id rest := by
        simp
      rw [e, e2]
      apply ih
      rw [objKeys_append, objKeys_append]
      simpa [objKeys] using hn

theorem deleteHabit_eq (id : String) (s : Store) (hwf : (objKeys s.appData.tracking).Nodup) :
    deleteHabit id s = some (saveData (Store.mk
      (AppData.mk (s.appData.habits.filter (fun h => decide (h.id ≠ id)))
        (cascadeRemove id s.appData.tracking)) s.localStorage), JSReturn.undefined) := by
  have h := deleteHabit_fold id s.appData.tracking [] (by simpa using hwf)
  simp only [List.nil_append] at h
  simp [deleteHabit, h]

theorem cascadeRemove_mem (id : String) (t : JSObject (JSObject Bool)) (p : String × JSObject Bool)
    (hp : p ∈ cascadeRemove id t) :
    objKeys p.2 ≠ [] ∧ ∃ q ∈ t, p = (q.1, objDelete q.2 id) := by
  simp only [cascadeRemove, List.mem_filter, List.mem_map, decide_eq_true_eq] at hp
  obtain ⟨⟨q, hq, rfl⟩, hne⟩ := hp
  exact ⟨hne, q, hq, rfl⟩

theorem objKeys_cascadeRemove_sublist (id : String) (t : JSObject (JSObject Bool)) :
    (objKeys (cascadeRemove id t)).Sublist (objKeys t) := by
  induction t with
  | nil => simp [cascadeRemove, objKeys]
  | cons p rest ih =>
    obtain ⟨k, day⟩ := p
    by_cases he : objKeys (objDelete day id) = []
    · rw [cascadeRemove_cons_empty _ _ _ _ he, objKeys_cons]
      exact ih.cons _
    · rw [cascadeRemove_cons_nonempty _ _ _ _ he, objKeys_cons, objKeys_cons]
      exact ih.cons₂ _

theorem cascadeRemove_of_clean (id : String) (t : JSObject (JSObject Bool))
    (habs : ∀ p ∈ t, id ∉ objKeys p.2) (hne : NonEmptyDays t) : cascadeRemove id t = t := by
  induction t with
  | nil => rfl
  | cons p rest ih =>
    obtain ⟨k, day⟩ := p
    have h1 : objDelete day id = day :=
      objDelete_of_not_mem _ _ (habs (k, day) (List.mem_cons_self _ _))
    have h2 : objKeys (objDelete day id) ≠ [] := by
      rw [h1]
      exact hne (k, day) (List.mem_cons_self _ _)
    rw [cascadeRemove_cons_nonempty _ _ _ _ h2, h1,
      ih (fun p hp => habs p (List.mem_cons_of_mem _ hp))
        (fun p hp => hne p (List.mem_cons_of_mem _ hp))]

theorem filter_ne_id_eq_erase (hs : List Habit) (h : Habit) (hm : h ∈ hs)
    (hn : (hs.map (fun x => x.id)).Nodup) :
    hs.filter (fun x => decide (x.id ≠ h.id)) = hs.erase h := by
  induction hs with
  | nil => simp at hm
  | cons a rest ih =>
    rw [List.map_cons, List.nodup_cons] at hn
    by_cases ha : a = h
    · subst ha
      have hrest : rest.filter (fun x => decide (x.id ≠ a.id)) = rest := by
        rw [List.filter_eq_self]
        intro x hx
        have : x.id ≠ a.id := fun e => hn.1 (e ▸ List.mem_map_of_mem (fun x => x.id) hx)
        simpa using this
      rw [List.filter_cons_of_neg (by simp), hrest, List.erase_cons_head]
    · have hm2 : h ∈ rest := by
        rcases List.mem_cons.mp hm with e | e
        · exact absurd e.symm ha
        · exact e
      have hid : a.id ≠ h.id := fun e => hn.1 (e ▸ List.mem_map_of_mem (fun x => x.id) hm2)
      rw [List.erase_cons_tail (by simpa using ha), ← ih hm2 hn.2,
        List.filter_cons_of_pos (by simpa using hid)]

/-- C1.  For every state whose tracking object has distinct date keys,
`deleteHabit(id)` completes; afterwards the habit sequence is the old one
without the habits carrying `id` (the others unchanged, in the same order;
with pairwise distinct ids this is the old sequence with that one habit
erased), tracking is the old tracking with `id` removed from every day's set
and with the days whose set is then empty removed, and `id` appears under no
date key. -/
theorem deleteHabit_cascade (id : String) (s : Store)
    (hwf : (objKeys s.appData.tracking).Nodup) :
    ∃ s1 r, deleteHabit id s = some (s1, r)
      ∧ s1.appData.habits = s.appData.habits.filter (fun h => decide (h.id ≠ id))
      ∧ (∀ h ∈ s.appData.habits, h.id = id → (s.appData.habits.map (fun x => x.id)).Nodup →
          s1.appData.habits = s.appData.habits.erase h)
      ∧ s1.appData.tracking = cascadeRemove id s.appData.tracking
      ∧ (∀ p ∈ s1.appData.tracking, id ∉ objKeys p.2)
      ∧ (∀ dateKey, objGet s1.appData.tracking dateKey
          = (objGet s.appData.tracking dateKey).bind (fun day =>
              if objKeys (objDelete day id) = [] then none else some (objDelete day id))) := by
  refine ⟨_, _, deleteHabit_eq id s hwf, rfl, ?_, rfl, ?_, ?_⟩
  · intro h hm hid hn
    subst hid
    exact filter_ne_id_eq_erase _ h hm hn
  · intro p hp
    obtain ⟨_, q, _, rfl⟩ := cascadeRemove_mem id _ p hp
    simp [objKeys_objDelete]
  · intro dateKey
    show objGet (cascadeRemove id s.appData.tracking) dateKey = _
    generalize s.appData.tracking = t at hwf
    induction t with
    | nil => simp [cascadeRemove_nil, objGet]
    | cons p rest ih =>
      obtain ⟨k, day⟩ := p
      rw [objKeys_cons, List.nodup_cons] at hwf
      by_cases hk : k = dateKey
      · subst hk
        by_cases he : objKeys (objDelete day id) = []
        · rw [cascadeRemove_cons_empty _ _ _ _ he]
          have : k ∉ objKeys (cascadeRemove id rest) :=
            fun hm => hwf.1 ((objKeys_cascadeRemove_sublist id rest).subset hm)
          simp [objGet, he, (objGet_eq_none_iff _ _).mpr this]
        · rw [cascadeRemove_cons_nonempty _ _ _ _ he]
          simp [objGet, he]
      · by_cases he : objKeys (objDelete day id) = []
        · rw [cascadeRemove_cons_empty _ _ _ _ he, ih hwf.2]
          simp [objGet, hk]
        · rw [cascadeRemove_cons_nonempty _ _ _ _ he]
          simp [objGet, hk, ih hwf.2]

/-- C1, at the specification's example: habits A and B, tracking
`{"2024-01-01": {A, B}, "2024-01-02": {A}}`; deleting A completes and leaves
habit B and tracking `{"2024-01-01": {B}}`. -/
theorem deleteHabit_cascade_witness :
    ∃ s1 r, deleteHabit "A" (Store.mk (AppData.mk [Habit.mk "A" "run" 1, Habit.mk "B" "read" 2]
          [("2024-01-01", [("A", true), ("B", true)]), ("2024-01-02", [("A", true)])]) [])
          = some (s1, r)
      ∧ s1.appData.habits = [Habit.mk "B" "read" 2]
      ∧ s1.appData.tracking = [("2024-01-01", [("B", true)])] := by
  obtain ⟨s1, r, h1, h2, _, h3, _⟩ := deleteHabit_cascade "A"
    (Store.mk (AppData.mk [Habit.mk "A" "run" 1, Habit.mk "B" "read" 2]
      [("2024-01-01", [("A", true), ("B", true)]), ("2024-01-02", [("A", true)])]) [])
    (by decide)
  refine ⟨s1, r, h1, ?_, ?_⟩
  · rw [h2]
    decide
  · rw [h3]
    decide

/-! ## The non-empty-set invariant -/

theorem mem_objSet {α : Type} (o : JSObject α) (k : String) (v : α) (p : String × α)
    (hp : p ∈ objSet o k v) : p ∈ o ∨ p = (k, v) := by
  induction o with
  | nil =>
    simp only [objSet, List.mem_singleton] at hp
    exact Or.inr hp
  | cons q rest ih =>
    obtain ⟨k', v'⟩ := q
    by_cases h1 : k' = k
    · subst h1
      simp only [objSet, if_true, List.mem_cons] at hp
      rcases hp with hp | hp
      · exact Or.inr hp
      · exact Or.inl (List.mem_cons_of_mem _ hp)
    · simp only [objSet, h1, if_false, List.mem_cons] at hp
      rcases hp with hp | hp
      · exact Or.inl (hp ▸ List.mem_cons_self _ _)
      · rcases ih hp with h | h
        · exact Or.inl (List.mem_cons_of_mem _ h)
        · exact Or.inr h

theorem nodup_objKeys_objSet {α : Type} (o : JSObject α) (k : String) (v : α)
    (h : (objKeys o).Nodup) : (objKeys (objSet o k v)).Nodup := by
  by_cases hk : k ∈ objKeys o
  · rw [objKeys_objSet_of_mem _ _ _ hk]
    exact h
  · rw [objSet_of_not_mem _ _ _ hk, objKeys_append]
    simp only [objKeys, List.map_cons, List.map_nil]
    rw [List.nodup_append]
    refine ⟨h, List.nodup_singleton _, ?_⟩
    intro a ha hb
    rw [List.mem_singleton] at hb
    exact hk (hb ▸ ha)

theorem nodup_objKeys_objDelete {α : Type} (o : JSObject α) (k : String)
    (h : (objKeys o).Nodup) : (objKeys (objDelete o k)).Nodup := by
  rw [objKeys_objDelete]
  exact h.filter _

theorem objKeys_objSet_ne_nil {α : Type} (o : JSObject α) (k : String) (v : α) :
    objKeys (objSet o k v) ≠ [] := by
  cases o with
  | nil => simp [objSet, objKeys]
  | cons q rest =>
    obtain ⟨k', v'⟩ := q
    by_cases h1 : k' = k <;> simp [objSet, objKeys, h1]

/-- Every outcome of a `toggleTracking` call whose habit id is not `__proto__`:
the call throws, or it leaves `tracking` as it was, or without the date key,
or with the date key mapped to a non-empty set. -/
theorem toggleTracking_outcome (dateKey habitId : String) (checked : Bool) (s : Store)
    (hproto : habitId ≠ "__proto__") :
    toggleTracking dateKey habitId checked s = none
    ∨ ∃ t, toggleTracking dateKey habitId checked s
        = some (saveData (Store.mk (AppData.mk s.appData.habits t) s.localStorage))
      ∧ (t = s.appData.tracking
          ∨ t = objDelete s.appData.tracking dateKey
          ∨ ∃ day, objKeys day ≠ [] ∧ t = objSet s.appData.tracking dateKey day) := by
  cases hr : objRead s.appData.tracking dateKey with
  | own day =>
    cases checked with
    | true =>
      refine Or.inr ⟨objSet s.appData.tracking dateKey (objSet day habitId true), ?_,
        Or.inr (Or.inr ⟨_, objKeys_objSet_ne_nil _ _ _, rfl⟩)⟩
      simp [toggleTracking, hr, objAssign_of_ne _ _ _ hproto]
    | false =>
      by_cases he : objKeys (objDelete day habitId) = []
      · refine Or.inr ⟨objDelete s.appData.tracking dateKey, ?_, Or.inr (Or.inl rfl)⟩
        simp only [objKeys, List.map_eq_nil_iff] at he
        simp [toggleTracking, hr, objRead_objSet_self, he, objKeys, objDelete_objSet_self]
      · refine Or.inr ⟨objSet s.appData.tracking dateKey (objDelete day habitId), ?_,
          Or.inr (Or.inr ⟨_, he, rfl⟩)⟩
        simp only [objKeys, ne_eq, List.map_eq_nil_iff] at he
        simp [toggleTracking, hr, objRead_objSet_self, he, objKeys]
  | inherited =>
    cases checked with
    | true =>
      refine Or.inr ⟨s.appData.tracking, ?_, Or.inl rfl⟩
      simp [toggleTracking, hr]
    | false =>
      by_cases hk : dateKey = "constructor" ∧ habitId = "keys"
      · left
        obtain ⟨rfl, rfl⟩ := hk
        simp [toggleTracking, hr]
      · refine Or.inr ⟨s.appData.tracking, ?_, Or.inl rfl⟩
        simp [toggleTracking, hr, hk, hproto]
  | absent =>
    cases checked with
    | true =>
      refine Or.inr ⟨objSet s.appData.tracking dateKey (objSet [] habitId true), ?_,
        Or.inr (Or.inr ⟨_, objKeys_objSet_ne_nil _ _ _, rfl⟩)⟩
      simp [toggleTracking, hr, objRead_objSet_self, objSet_objSet_self,
        objAssign_of_ne _ _ _ hproto]
    | false =>
      refine Or.inr ⟨objDelete s.appData.tracking dateKey, ?_, Or.inr (Or.inl rfl)⟩
      simp [toggleTracking, hr, objRead_objSet_self, objSet_objSet_self, objDelete_nil, objKeys,
        objDelete_objSet_self]

/-- A `toggleTracking` call whose habit id is not `__proto__` completes, unless
it is `toggleTracking("constructor", "keys", false)`. -/
theorem toggleTracking_completes (dateKey habitId : String) (checked : Bool) (s : Store)
    (hproto : habitId ≠ "__proto__")
    (hkeys : ¬ (dateKey = "constructor" ∧ habitId = "keys" ∧ checked = false)) :
    ∃ s1, toggleTracking dateKey habitId checked s = some s1 := by
  rcases toggleTracking_outcome dateKey habitId checked s hproto with h | ⟨t, h, _⟩
  · exfalso
    cases hr : objRead s.appData.tracking dateKey with
    | own day =>
      cases checked <;>
        simp [toggleTracking, hr, objRead_objSet_self] at h
    | inherited =>
      cases checked with
      | true => simp [toggleTracking, hr] at h
      | false =>
        have hk : ¬ (dateKey = "constructor" ∧ habitId = "keys") := fun e => hkeys ⟨e.1, e.2, rfl⟩
        simp [toggleTracking, hr, hk, hproto] at h
    | absent =>
      cases checked <;>
        simp [toggleTracking, hr, objRead_objSet_self] at h
  · exact ⟨_, h⟩

/-- C2 as stated fails.  From the empty state, whose tracking has no date key
at all, `toggleTracking("2024-01-05", "__proto__", true)` completes: line 187
creates the entry for the date, and the assignment of `true` to `__proto__`
at line 191 defines no property, so the date key is left mapped to the empty
set. -/
theorem toggleTracking_proto_counterexample :
    (objKeys (Store.mk emptyAppData []).appData.tracking).Nodup
    ∧ NonEmptyDays (Store.mk emptyAppData []).appData.tracking
    ∧ (runCall (Call.toggle "2024-01-05" "__proto__" true) (Store.mk emptyAppData [])).map
        (fun s1 => s1.appData.tracking) = some [("2024-01-05", [])]
    ∧ ¬ NonEmptyDays [("2024-01-05", [])] := by
  decide

/-- C2, amended.  Starting from a state whose tracking object has distinct date
keys, each mapped to a non-empty set, every call of `addHabit`, `updateHabit`
or `deleteHabit` with any arguments, and every call of `toggleTracking` whose
habit id is not `__proto__`, leaves a tracking object with distinct date keys,
each mapped to a non-empty set; and the call completes, unless it is
`toggleTracking("constructor", "keys", false)`. -/
theorem mutation_keeps_days_nonempty (c : Call) (s : Store)
    (hwf : (objKeys s.appData.tracking).Nodup) (hne : NonEmptyDays s.appData.tracking)
    (hc : protoFree c) :
    (∀ s1, runCall c s = some s1 →
      (objKeys s1.appData.tracking).Nodup ∧ NonEmptyDays s1.appData.tracking)
    ∧ (c ≠ Call.toggle "constructor" "keys" false → ∃ s1, runCall c s = some s1) := by
  cases c with
  | add name env =>
    refine ⟨?_, fun _ => ⟨_, rfl⟩⟩
    intro s1 h
    simp only [runCall, Option.some.injEq] at h
    rw [← h]
    exact ⟨hwf, hne⟩
  | update id newName =>
    refine ⟨?_, fun _ => ⟨_, rfl⟩⟩
    intro s1 h
    simp only [runCall, Option.some.injEq] at h
    rw [← h]
    unfold updateHabit
    split
    · exact ⟨hwf, hne⟩
    · exact ⟨hwf, hne⟩
  | delete id =>
    have hrun : runCall (Call.delete id) s = some (saveData (Store.mk
        (AppData.mk (s.appData.habits.filter (fun h => decide (h.id ≠ id)))
          (cascadeRemove id s.appData.tracking)) s.localStorage)) := by
      rw [runCall, deleteHabit_eq id s hwf]
      rfl
    refine ⟨?_, fun _ => ⟨_, hrun⟩⟩
    intro s1 h
    rw [hrun, Option.some.injEq] at h
    rw [← h]
    refine ⟨(objKeys_cascadeRemove_sublist id _).nodup hwf, ?_⟩
    intro p hp
    exact (cascadeRemove_mem id _ p hp).1
  | toggle dateKey habitId checked =>
    have hproto : habitId ≠ "__proto__" := hc
    refine ⟨?_, ?_⟩
    · intro s1 h
      rcases toggleTracking_outcome dateKey habitId checked s hproto with h0 | ⟨t, h1, h2⟩
      · rw [runCall, h0] at h
        simp at h
      · rw [runCall, h1, Option.some.injEq] at h
        rw [← h]
        rcases h2 with h2 | h2 | ⟨day, hday, h2⟩
        · subst h2
          exact ⟨hwf, hne⟩
        · subst h2
          refine ⟨nodup_objKeys_objDelete _ _ hwf, ?_⟩
          intro p hp
          exact hne p (List.mem_of_mem_filter hp)
        · subst h2
          refine ⟨nodup_objKeys_objSet _ _ _ hwf, ?_⟩
          intro p hp
          rcases mem_objSet _ _ _ p hp with h3 | h3
          · exact hne p h3
          · rw [h3]
            exact hday
    · intro hne2
      apply toggleTracking_completes dateKey habitId checked s hproto
      rintro ⟨rfl, rfl, rfl⟩
      exact hne2 rfl

/-- C2 amended, at a concrete call: unchecking a habit on a date key that is
not in tracking (the call first creates an empty entry for it, then removes
it). -/
theorem mutation_keeps_days_nonempty_witness :
    ∃ s1, runCall (Call.toggle "2024-01-05" "A" false)
        (Store.mk (AppData.mk [Habit.mk "A" "run" 1] [("2024-01-01", [("A", true)])]) []) = some s1
      ∧ (objKeys s1.appData.tracking).Nodup ∧ NonEmptyDays s1.appData.tracking := by
  obtain ⟨h1, h2⟩ := mutation_keeps_days_nonempty (Call.toggle "2024-01-05" "A" false)
    (Store.mk (AppData.mk [Habit.mk "A" "run" 1] [("2024-01-01", [("A", true)])]) [])
    (by decide) (by decide) (by decide)
  obtain ⟨s1, hs⟩ := h2 (by decide)
  exact ⟨s1, hs, h1 s1 hs⟩

/-! ## Unknown habit ids and return values -/

/-- C9 as stated fails.  With habit A stored and the id `ghost` recorded under
a date key (`toggleTracking` accepts any id), `deleteHabit("ghost")` matches no
habit and yet changes tracking; and for the id A, which does match,
`updateHabit` and `deleteHabit` evaluate to `undefined`, not to `true`. -/
theorem unknown_id_counterexample :
    (deleteHabit "ghost" (Store.mk (AppData.mk [Habit.mk "A" "run" 1]
        [("2024-01-01", [("ghost", true)])]) [])).map (fun r => r.1.appData.tracking)
      = some []
    ∧ (deleteHabit "ghost" (Store.mk (AppData.mk [Habit.mk "A" "run" 1]
        [("2024-01-01", [("ghost", true)])]) [])).map Prod.snd ≠ some (JSReturn.boolean false)
    ∧ (updateHabit "A" "walk" (Store.mk (AppData.mk [Habit.mk "A" "run" 1] []) [])).2
      ≠ JSReturn.boolean true
    ∧ (deleteHabit "A" (Store.mk (AppData.mk [Habit.mk "A" "run" 1] []) [])).map Prod.snd
      ≠ some (JSReturn.boolean true) := by
  decide

/-- C9, amended.  For an id that matches no habit, `updateHabit` leaves the
whole state unchanged, and `deleteHabit` completes and leaves the habits
unchanged; it still removes the id from every day's set, so tracking is
unchanged when the id is recorded under no date key and no date key maps to an
empty set.  Neither function returns a value: both evaluate to `undefined`,
whether or not the id matches a habit. -/
theorem unknown_id_no_change (id newName : String) (s : Store)
    (hno : ∀ h ∈ s.appData.habits, h.id ≠ id)
    (hwf : (objKeys s.appData.tracking).Nodup) :
    updateHabit id newName s = (s, JSReturn.undefined)
    ∧ (∃ s1, deleteHabit id s = some (s1, JSReturn.undefined)
        ∧ s1.appData.habits = s.appData.habits
        ∧ s1.appData.tracking = cascadeRemove id s.appData.tracking
        ∧ ((∀ p ∈ s.appData.tracking, id ∉ objKeys p.2) → NonEmptyDays s.appData.tracking →
            s1.appData.tracking = s.appData.tracking))
    ∧ (∀ i n, (updateHabit i n s).2 = JSReturn.undefined)
    ∧ (∀ i, ∃ s1, deleteHabit i s = some (s1, JSReturn.undefined)) := by
  refine ⟨?_, ?_, ?_, ?_⟩
  · have hf : s.appData.habits.find? (fun h => decide (h.id = id)) = none := by
      rw [List.find?_eq_none]
      intro h hh
      simpa using hno h hh
    simp [updateHabit, hf]
  · refine ⟨_, deleteHabit_eq id s hwf, ?_, rfl, ?_⟩
    · show s.appData.habits.filter (fun h => decide (h.id ≠ id)) = s.appData.habits
      rw [List.filter_eq_self]
      intro h hh
      simpa using hno h hh
    · intro habs hne
      exact cascadeRemove_of_clean id _ habs hne
  · intro i n
    unfold updateHabit
    split <;> rfl
  · intro i
    exact ⟨_, deleteHabit_eq i s hwf⟩

/-- C9 amended, at a concrete state and an id that matches no habit: both
calls leave the habits and the tracking as they were. -/
theorem unknown_id_no_change_witness :
    updateHabit "ghost" "walk"
        (Store.mk (AppData.mk [Habit.mk "A" "run" 1] [("2024-01-01", [("A", true)])]) [])
      = (Store.mk (AppData.mk [Habit.mk "A" "run" 1] [("2024-01-01", [("A", true)])]) [],
          JSReturn.undefined)
    ∧ ∃ s1, deleteHabit "ghost"
          (Store.mk (AppData.mk [Habit.mk "A" "run" 1] [("2024-01-01", [("A", true)])]) [])
          = some (s1, JSReturn.undefined)
        ∧ s1.appData.habits = [Habit.mk "A" "run" 1]
        ∧ s1.appData.tracking = [("2024-01-01", [("A", true)])] := by
  obtain ⟨h1, ⟨s1, h2, h3, _, h4⟩, _⟩ := unknown_id_no_change "ghost" "walk"
    (Store.mk (AppData.mk [Habit.mk "A" "run" 1] [("2024-01-01", [("A", true)])]) [])
    (by decide) (by decide)
  exact ⟨h1, s1, h2, h3, h4 (by decide) (by decide)⟩

/-! ## Names: `trim` and the guard of `handleSave` -/

theorem dropWhile_head_false {α : Type} (p : α → Bool) (l : List α) (x : α) (t : List α)
    (h : l.dropWhile p = x :: t) : p x = false := by
  induction l with
  | nil => simp at h
  | cons a rest ih =>
    by_cases ha : p a = true
    · rw [List.dropWhile_cons_of_pos ha] at h
      exact ih h
    · rw [List.dropWhile_cons_of_neg ha] at h
      cases h
      simpa using ha

theorem dropWhile_self_of_dropWhile {α : Type} (p : α → Bool) (l : List α) :
    (l.dropWhile p).dropWhile p = l.dropWhile p := by
  cases h : l.dropWhile p with
  | nil => rfl
  | cons x t =>
    have := dropWhile_head_false p l x t h
    simp [List.dropWhile_cons, this]

/-- The list form of `trim`. -/
theorem trim_data (s : String) :
    (trim s).data = ((s.data.dropWhile isTrimChar).reverse.dropWhile isTrimChar).reverse := rfl

theorem trimList_idem (p : Char → Bool) (l : List Char) :
    (((((l.dropWhile p).reverse.dropWhile p).reverse).dropWhile p).reverse.dropWhile p).reverse
      = ((l.dropWhile p).reverse.dropWhile p).reverse := by
  have key : (((l.dropWhile p).reverse.dropWhile p).reverse).dropWhile p
      = ((l.dropWhile p).reverse.dropWhile p).reverse := by
    cases hb : ((l.dropWhile p).reverse.dropWhile p).reverse with
    | nil => rfl
    | cons y r =>
      have hsplit := List.takeWhile_append_dropWhile p (l.dropWhile p).reverse
      have h2 : l.dropWhile p
          = ((l.dropWhile p).reverse.dropWhile p).reverse
            ++ ((l.dropWhile p).reverse.takeWhile p).reverse := by
        rw [← List.reverse_append, hsplit, List.reverse_reverse]
      rw [hb] at h2
      have hy : p y = false := dropWhile_head_false p l y _ h2
      simp [List.dropWhile_cons, hy]
  rw [key, List.reverse_reverse, dropWhile_self_of_dropWhile]

theorem trim_trim (s : String) : trim (trim s) = trim s := by
  apply String.ext
  rw [trim_data, trim_data, trimList_idem]

theorem mem_renameFirst (id newName : String) (hs : List Habit) (h : Habit)
    (hm : h ∈ renameFirst id newName hs) : h ∈ hs ∨ h.name = newName := by
  induction hs with
  | nil => simp [renameFirst] at hm
  | cons a rest ih =>
    by_cases ha : a.id = id
    · simp only [renameFirst, ha, if_true, List.mem_cons] at hm
      rcases hm with hm | hm
      · exact Or.inr (by rw [hm])
      · exact Or.inl (List.mem_cons_of_mem _ hm)
    · simp only [renameFirst, ha, if_false, List.mem_cons] at hm
      rcases hm with hm | hm
      · exact Or.inl (hm ▸ List.mem_cons_self _ _)
      · rcases ih hm with h1 | h1
        · exact Or.inl (List.mem_cons_of_mem _ h1)
        · exact Or.inr h1

theorem addHabit_habits (name : String) (env : AddEnv) (s : Store) :
    (addHabit name env s).appData.habits
      = s.appData.habits
        ++ [Habit.mk (generateId env.idClock env.randomDigits) (trim name) env.createdClock] :=
  rfl

theorem updateHabit_mem (id newName : String) (s : Store) (h : Habit)
    (hm : h ∈ (updateHabit id newName s).1.appData.habits) :
    h ∈ s.appData.habits ∨ h.name = trim newName := by
  unfold updateHabit at hm
  split at hm
  · exact mem_renameFirst _ _ _ _ hm
  · exact Or.inl hm

/-- C5 as stated fails: `addHabit` has no check.  Called with `""` or with
`"   "` on the empty state it appends a habit whose name is the empty string. -/
theorem addHabit_blank_counterexample :
    (addHabit "" (AddEnv.mk 1700000000000 "4fzzzxjylrx" 1700000000000)
        (Store.mk emptyAppData [])).appData.habits
      = [Habit.mk "loyw3v284fzzzxjylrx" "" 1700000000000]
    ∧ (addHabit "   " (AddEnv.mk 1700000000000 "4fzzzxjylrx" 1700000000000)
        (Store.mk emptyAppData [])).appData.habits
      = [Habit.mk "loyw3v284fzzzxjylrx" "" 1700000000000] := by
  decide

/-- C5, amended.  The check lives in `handleSave`, the caller of `addHabit`
and `updateHabit`.  For every state: when the text field is empty after
trimming, `handleSave` returns at once and leaves the page state and the whole
store unchanged; and whatever the text field holds, every habit in the
collection after `handleSave` was there before or has a name that is neither
empty nor whitespace-only.  `addHabit` itself appends a habit whose name is the
trimmed text, empty or not, so after it the collection is never the old one. -/
theorem handleSave_guards_names (env : AddEnv) (ui : UI) (s : Store) :
    (trim ui.habitInput = "" → handleSave env ui s = (ui, s))
    ∧ (∀ h ∈ (handleSave env ui s).2.appData.habits, h ∈ s.appData.habits ∨ trim h.name ≠ "")
    ∧ (∀ name, (addHabit name env s).appData.habits
        = s.appData.habits
          ++ [Habit.mk (generateId env.idClock env.randomDigits) (trim name) env.createdClock])
    ∧ (∀ name, (addHabit name env s).appData.habits ≠ s.appData.habits) := by
  refine ⟨?_, ?_, fun name => rfl, ?_⟩
  · intro hb
    simp [handleSave, hb]
  · intro h hm
    by_cases hb : trim ui.habitInput = ""
    · simp only [handleSave, hb, if_true] at hm
      exact Or.inl hm
    · have hnew : trim (trim (trim ui.habitInput)) ≠ "" := by
        rw [trim_trim, trim_trim]
        exact hb
      have hadd : ∀ h ∈ (addHabit (trim ui.habitInput) env s).appData.habits,
          h ∈ s.appData.habits ∨ trim h.name ≠ "" := by
        intro h hm
        rw [addHabit_habits, List.mem_append, List.mem_singleton] at hm
        rcases hm with hm | hm
        · exact Or.inl hm
        · rw [hm]
          exact Or.inr hnew
      simp only [handleSave, hb, if_false] at hm
      split at hm
      · split at hm
        · exact hadd h hm
        · rcases updateHabit_mem _ _ _ h hm with h1 | h1
          · exact Or.inl h1
          · rw [h1]
            exact Or.inr hnew
      · exact hadd h hm
  · intro name e
    have := congrArg List.length e
    rw [addHabit_habits, List.length_append] at this
    simp at this

/-- C5 amended, at the text `"   "` and a state that already holds a habit
with an empty name: `handleSave` changes nothing. -/
theorem handleSave_guards_names_witness :
    trim "   " = ""
    ∧ handleSave (AddEnv.mk 1700000000000 "4fzzzxjylrx" 1700000000000) (UI.mk "   " none true)
        (Store.mk (AppData.mk [Habit.mk "A" "run" 1, Habit.mk "B" "" 2] []) [])
      = (UI.mk "   " none true,
          Store.mk (AppData.mk [Habit.mk "A" "run" 1, Habit.mk "B" "" 2] []) []) :=
  ⟨by decide,
    (handleSave_guards_names (AddEnv.mk 1700000000000 "4fzzzxjylrx" 1700000000000)
      (UI.mk "   " none true)
      (Store.mk (AppData.mk [Habit.mk "A" "run" 1, Habit.mk "B" "" 2] []) [])).1 (by decide)⟩

/-! ## Habit ids -/

theorem toNat_ofNat_small (n : Nat) (h : n < 55296) : (Char.ofNat n).toNat = n := by
  have hv : n.isValidChar := Or.inl h
  unfold Char.ofNat
  rw [dif_pos hv]
  simp only [Char.ofNatAux, Char.toNat, UInt32.toNat]
  simp [BitVec.toNat_ofNatLt]

theorem digit36_toNat (d : Nat) (h : d < 36) :
    (digit36 d).toNat = if d < 10 then 48 + d else 87 + d := by
  unfold digit36
  split
  · exact toNat_ofNat_small _ (by omega)
  · exact toNat_ofNat_small _ (by omega)

theorem digit36_inj (a b : Nat) (ha : a < 36) (hb : b < 36) (h : digit36 a = digit36 b) :
    a = b := by
  have h1 := congrArg Char.toNat h
  rw [digit36_toNat a ha, digit36_toNat b hb] at h1
  split at h1 <;> split at h1 <;> omega

theorem base36_ne_nil (fuel n : Nat) : base36 (fuel + 1) n ≠ [] := by
  unfold base36
  split <;> simp

theorem base36_inj : ∀ (f n : Nat), n < f → ∀ (g m : Nat), m < g →
    base36 f n = base36 g m → n = m := by
  intro f
  induction f with
  | zero => intro n hn; omega
  | succ f ih =>
    intro n hn g m hm h
    cases g with
    | zero => omega
    | succ g =>
      by_cases h1 : n < 36
      · by_cases h2 : m < 36
        · simp only [base36, h1, h2, if_true, List.cons.injEq, and_true] at h
          exact digit36_inj n m h1 h2 h
        · simp only [base36, h1, h2, if_true, if_false] at h
          have hl := congrArg List.length h
          simp only [List.length_singleton, List.length_append] at hl
          have hg : 0 < g := by omega
          obtain ⟨g', rfl⟩ : ∃ g', g = g' + 1 := ⟨g - 1, by omega⟩
          have := base36_ne_nil g' (m / 36)
          rw [← List.length_pos] at this
          omega
      · by_cases h2 : m < 36
        · simp only [base36, h1, h2, if_true, if_false] at h
          have hl := congrArg List.length h
          simp only [List.length_singleton, List.length_append] at hl
          obtain ⟨f', rfl⟩ : ∃ f', f = f' + 1 := ⟨f - 1, by omega⟩
          have := base36_ne_nil f' (n / 36)
          rw [← List.length_pos] at this
          omega
        · simp only [base36, h1, h2, if_false] at h
          have hlast := List.append_inj' h rfl
          have hd := digit36_inj _ _ (Nat.mod_lt n (by omega)) (Nat.mod_lt m (by omega))
            (List.cons.inj hlast.2).1
          have hq := ih (n / 36) (by omega) g (m / 36) (by omega) hlast.1
          omega

theorem toString36_inj (a b : Nat) (h : toString36 a = toString36 b) : a = b := by
  have h1 : base36 (a + 1) a = base36 (b + 1) b := by
    have := congrArg String.data h
    simpa [toString36] using this
  exact base36_inj _ _ (by omega) _ _ (by omega) h1

theorem generateId_eq_iff (c1 c2 : Nat) (r1 r2 : String)
    (hlen : (toString36 c1).length = (toString36 c2).length) :
    generateId c1 r1 = generateId c2 r2 ↔ c1 = c2 ∧ r1 = r2 := by
  constructor
  · intro h
    have h1 := congrArg String.data h
    simp only [generateId, String.data_append] at h1
    have h2 := List.append_inj h1 hlen
    exact ⟨toString36_inj _ _ (String.ext h2.1), String.ext h2.2⟩
  · rintro ⟨rfl, rfl⟩
    rfl

/-- C6 as stated fails.  Starting from the empty state, two `addHabit` calls
that see the same clock reading and the same random draw append two habits
with the same id, so the ids are no longer pairwise distinct. -/
theorem addHabit_same_draw_counterexample :
    ((Store.mk emptyAppData []).appData.habits.map (fun h => h.id)).Nodup
    ∧ ((addHabit "read" (AddEnv.mk 1700000000000 "4fzzzxjylrx" 1700000000000)
          (addHabit "run" (AddEnv.mk 1700000000000 "4fzzzxjylrx" 1700000000000)
            (Store.mk emptyAppData []))).appData.habits.map (fun h => h.id))
        = ["loyw3v284fzzzxjylrx", "loyw3v284fzzzxjylrx"]
    ∧ ¬ ((addHabit "read" (AddEnv.mk 1700000000000 "4fzzzxjylrx" 1700000000000)
          (addHabit "run" (AddEnv.mk 1700000000000 "4fzzzxjylrx" 1700000000000)
            (Store.mk emptyAppData []))).appData.habits.map (fun h => h.id)).Nodup := by
  decide

/-- C6, amended.  Two consecutive `addHabit` calls append two habits whose ids
are the base-36 text of the clock reading followed by the digits of the random
draw.  Starting from pairwise distinct ids, the ids stay pairwise distinct
exactly when the two new ids differ from each other and from every existing
id; the code does not check this.  When the two clock readings have base-36
texts of the same length, the two new ids are equal exactly when both the
clock readings and the random digits are identical. -/
theorem addHabit_twice_ids (name1 name2 : String) (env1 env2 : AddEnv) (s : Store)
    (hnodup : (s.appData.habits.map (fun h => h.id)).Nodup) :
    (addHabit name2 env2 (addHabit name1 env1 s)).appData.habits
      = s.appData.habits
        ++ [Habit.mk (generateId env1.idClock env1.randomDigits) (trim name1) env1.createdClock,
            Habit.mk (generateId env2.idClock env2.randomDigits) (trim name2) env2.createdClock]
    ∧ (((addHabit name2 env2 (addHabit name1 env1 s)).appData.habits.map (fun h => h.id)).Nodup
        ↔ (generateId env1.idClock env1.randomDigits ∉ s.appData.habits.map (fun h => h.id)
          ∧ generateId env2.idClock env2.randomDigits ∉ s.appData.habits.map (fun h => h.id)
          ∧ generateId env1.idClock env1.randomDigits
              ≠ generateId env2.idClock env2.randomDigits))
    ∧ ((toString36 env1.idClock).length = (toString36 env2.idClock).length →
        (generateId env1.idClock env1.randomDigits = generateId env2.idClock env2.randomDigits
          ↔ env1.idClock = env2.idClock ∧ env1.randomDigits = env2.randomDigits)) := by
  have hh : (addHabit name2 env2 (addHabit name1 env1 s)).appData.habits
      = s.appData.habits
        ++ [Habit.mk (generateId env1.idClock env1.randomDigits) (trim name1) env1.createdClock,
            Habit.mk (generateId env2.idClock env2.randomDigits) (trim name2) env2.createdClock] := by
    rw [addHabit_habits, addHabit_habits, List.append_assoc]
    rfl
  refine ⟨hh, ?_, fun hlen => generateId_eq_iff _ _ _ _ hlen⟩
  rw [hh, List.map_append, List.nodup_append]
  simp only [List.map_cons, List.map_nil]
  constructor
  · rintro ⟨_, h2, h3⟩
    refine ⟨fun hm => h3 hm (List.mem_cons_self _ _),
      fun hm => h3 hm (List.mem_cons_of_mem _ (List.mem_singleton_self _)), ?_⟩
    intro e
    exact (List.nodup_cons.mp h2).1 (e ▸ List.mem_singleton_self _)
  · rintro ⟨h1, h2, h3⟩
    refine ⟨hnodup, List.nodup_cons.mpr ⟨?_, List.nodup_singleton _⟩, ?_⟩
    · intro hm
      exact h3 (List.mem_singleton.mp hm)
    · intro a ha hb
      rcases List.mem_cons.mp hb with e | hb
      · exact h1 (e ▸ ha)
      · exact h2 (List.mem_singleton.mp hb ▸ ha)

/-- C6 amended, at two calls that see the same clock reading and different
random draws: the ids stay pairwise distinct, and the two new ids differ. -/
theorem addHabit_twice_ids_witness :
    ((addHabit "read" (AddEnv.mk 1700000000000 "9k2m" 1700000000000)
        (addHabit "run" (AddEnv.mk 1700000000000 "4fzzzxjylrx" 1700000000000)
          (Store.mk (AppData.mk [Habit.mk "A" "walk" 1] []) []))).appData.habits.map
        (fun h => h.id)).Nodup
    ∧ (generateId 1700000000000 "4fzzzxjylrx" = generateId 1700000000000 "9k2m"
        ↔ 1700000000000 = 1700000000000 ∧ "4fzzzxjylrx" = "9k2m") := by
  obtain ⟨_, h2, h3⟩ := addHabit_twice_ids "run" "read"
    (AddEnv.mk 1700000000000 "4fzzzxjylrx" 1700000000000)
    (AddEnv.mk 1700000000000 "9k2m" 1700000000000)
    (Store.mk (AppData.mk [Habit.mk "A" "walk" 1] []) []) (by decide)
  exact ⟨h2.mpr (by decide), h3 (by decide)⟩

/-! ## The date key and the local day -/

theorem formatDateKey_of_same_utc_day (t1 t2 : Int) (h : t1 / msPerDay = t2 / msPerDay) :
    formatDateKey t1 = formatDateKey t2 := by
  unfold formatDateKey
  rw [h]

/-- The model of `toISOString` on a few known instants: the epoch, the
millisecond before it, both sides of a leap day and of a year end. -/
theorem formatDateKey_known_dates :
    formatDateKey 0 = "1970-01-01"
    ∧ formatDateKey (-1) = "1969-12-31"
    ∧ formatDateKey 951782400000 = "2000-02-29"
    ∧ formatDateKey 951868800000 = "2000-03-01"
    ∧ formatDateKey 1709251199999 = "2024-02-29"
    ∧ formatDateKey 1735689599999 = "2024-12-31"
    ∧ formatDateKey 1735689600000 = "2025-01-01" := by
  decide

/-- C10 fails on the code.  In a zone two hours east of UTC, at the instant
2024-01-02T10:00:00Z (local noon of 2 January 2024), the first date of
`getDates` is local midnight of that same local day, the instant
2024-01-01T22:00:00Z.  Both instants lie on the local calendar day 2024-01-02,
yet `formatDateKey` gives `2024-01-01` for the first and `2024-01-02` for the
second: the key is the UTC day, not the local day. -/
theorem formatDateKey_local_day_divergence :
    (getDates 120 1704189600000).head? = some 1704146400000
    ∧ localDay 120 1704146400000 = localDay 120 1704189600000
    ∧ localDateKey 120 1704146400000 = "2024-01-02"
    ∧ localDateKey 120 1704189600000 = "2024-01-02"
    ∧ formatDateKey 1704146400000 = "2024-01-01"
    ∧ formatDateKey 1704189600000 = "2024-01-02"
    ∧ formatDateKey 1704146400000 ≠ formatDateKey 1704189600000 := by
  decide

/-! ## Reading back what `JSON.stringify` wrote: strings -/

theorem hexValue_hexDigit (d : Nat) (h : d < 16) : hexValue (hexDigit d) = some d := by
  unfold hexDigit
  by_cases h1 : d < 10
  · rw [if_pos h1]
    unfold hexValue
    rw [toNat_ofNat_small _ (by omega)]
    have h2 : 48 ≤ 48 + d ∧ 48 + d ≤ 57 := by omega
    rw [if_pos h2]
    simp
  · rw [if_neg h1]
    unfold hexValue
    rw [toNat_ofNat_small _ (by omega)]
    have h2 : ¬ (48 ≤ 87 + d ∧ 87 + d ≤ 57) := by omega
    have h3 : 97 ≤ 87 + d ∧ 87 + d ≤ 102 := by omega
    rw [if_neg h2, if_pos h3]
    simp

theorem hex4_control (n : Nat) (h : n < 32) (tail : List Char) :
    hex4 ('0' :: '0' :: hexDigit (n / 16) :: hexDigit (n % 16) :: tail) = some (n, tail) := by
  have h0 : hexValue '0' = some 0 := by decide
  have h1 := hexValue_hexDigit (n / 16) (by omega)
  have h2 := hexValue_hexDigit (n % 16) (Nat.mod_lt _ (by omega))
  simp only [hex4, h0, h1, h2]
  simp only [Option.some.injEq, Prod.mk.injEq, and_true]
  omega

theorem parseStringBody_escapeChar (c : Char) (tail : List Char) (fuel : Nat) :
    parseStringBody (fuel + 1) (escapeChar c ++ tail) = pushChar c (parseStringBody fuel tail) := by
  by_cases h1 : c = '"'
  · subst h1
    simp [escapeChar, parseStringBody, simpleEscape]
  by_cases h2 : c = '\\'
  · subst h2
    simp [escapeChar, parseStringBody, simpleEscape]
  by_cases h3 : c.toNat < 32
  · have hc : c = Char.ofNat c.toNat := (Char.ofNat_toNat c).symm
    by_cases h8 : c.toNat = 8
    · rw [h8] at hc
      subst hc
      simp [escapeChar, parseStringBody, simpleEscape]
    by_cases h9 : c.toNat = 9
    · rw [h9] at hc
      subst hc
      simp [escapeChar, parseStringBody, simpleEscape]
    by_cases h10 : c.toNat = 10
    · rw [h10] at hc
      subst hc
      simp [escapeChar, parseStringBody, simpleEscape]
    by_cases h12 : c.toNat = 12
    · rw [h12] at hc
      subst hc
      simp [escapeChar, parseStringBody, simpleEscape]
    by_cases h13 : c.toNat = 13
    · rw [h13] at hc
      subst hc
      simp [escapeChar, parseStringBody, simpleEscape]
    · have he : escapeChar c
          = ['\\', 'u', '0', '0', hexDigit (c.toNat / 16), hexDigit (c.toNat % 16)] := by
        simp [escapeChar, h1, h2, h3, h8, h9, h10, h12, h13]
      rw [he]
      have hs1 : ¬ (55296 ≤ c.toNat ∧ c.toNat ≤ 56319) := by omega
      have hs2 : ¬ (56320 ≤ c.toNat ∧ c.toNat ≤ 57343) := by omega
      simp only [List.cons_append, List.nil_append, parseStringBody]
      simp [hex4_control c.toNat h3 tail, hs1, hs2]
  · have he : escapeChar c = [c] := by
      have h8 : c.toNat ≠ 8 := by omega
      have h9 : c.toNat ≠ 9 := by omega
      have h10 : c.toNat ≠ 10 := by omega
      have h12 : c.toNat ≠ 12 := by omega
      have h13 : c.toNat ≠ 13 := by omega
      simp [escapeChar, h1, h2, h3, h8, h9, h10, h12, h13]
    rw [he]
    simp [parseStringBody, h1, h2, h3]

theorem escapeChar_length_pos (c : Char) : 0 < (escapeChar c).length := by
  unfold escapeChar
  repeat' split
  all_goals simp

theorem parseStringBody_escapeChars (s : List Char) :
    ∀ (fuel : Nat) (rest : List Char), (escapeChars s).length + 1 ≤ fuel →
      parseStringBody fuel (escapeChars s ++ '"' :: rest) = some (s, rest) := by
  induction s with
  | nil =>
    intro fuel rest h
    obtain ⟨f, rfl⟩ : ∃ f, fuel = f + 1 := ⟨fuel - 1, by omega⟩
    simp [escapeChars, parseStringBody]
  | cons c cs ih =>
    intro fuel rest h
    obtain ⟨f, rfl⟩ : ∃ f, fuel = f + 1 := ⟨fuel - 1, by omega⟩
    have hpos := escapeChar_length_pos c
    simp only [escapeChars, List.length_append] at h
    rw [escapeChars, List.append_assoc, parseStringBody_escapeChar, ih f rest (by omega)]
    rfl

theorem parseStringBody_quoteString (s : String) (rest : List Char) :
    parseStringBody (escapeChars s.data ++ '"' :: rest).length (escapeChars s.data ++ '"' :: rest)
      = some (s.data, rest) := by
  apply parseStringBody_escapeChars
  simp

/-! ## Reading back what `JSON.stringify` wrote: numbers -/

theorem isDigit_ofNat (k : Nat) (h : k < 10) : isDigit (Char.ofNat (48 + k)) = true := by
  unfold isDigit
  rw [toNat_ofNat_small _ (by omega)]
  simp
  omega

theorem natDigits_isDigit : ∀ (fuel n : Nat), ∀ c ∈ natDigits fuel n, isDigit c = true := by
  intro fuel
  induction fuel with
  | zero => intro n c hc; simp [natDigits] at hc
  | succ f ih =>
    intro n c hc
    unfold natDigits at hc
    split at hc
    · rw [List.mem_singleton] at hc
      rw [hc]
      exact isDigit_ofNat n (by omega)
    · rw [List.mem_append, List.mem_singleton] at hc
      rcases hc with hc | hc
      · exact ih _ c hc
      · rw [hc]
        exact isDigit_ofNat _ (Nat.mod_lt _ (by omega))

theorem digitsValue_append_singleton (l : List Char) (c : Char) :
    digitsValue (l ++ [c]) = 10 * digitsValue l + (c.toNat - 48) := by
  simp [digitsValue, List.foldl_append]

theorem natDigits_value : ∀ (fuel n : Nat), n < fuel → digitsValue (natDigits fuel n) = n := by
  intro fuel
  induction fuel with
  | zero => intro n h; omega
  | succ f ih =>
    intro n h
    unfold natDigits
    split
    · simp [digitsValue, toNat_ofNat_small (48 + n) (by omega)]
    · rw [digitsValue_append_singleton, ih (n / 10) (by omega),
        toNat_ofNat_small _ (by omega)]
      omega

theorem natDigits_ne_nil (fuel n : Nat) : natDigits (fuel + 1) n ≠ [] := by
  unfold natDigits
  split <;> simp

theorem natDigits_head_ne_zero : ∀ (fuel n : Nat), n < fuel → 0 < n →
    (natDigits fuel n).head? ≠ some '0' := by
  intro fuel
  induction fuel with
  | zero => intro n h; omega
  | succ f ih =>
    intro n h hpos
    unfold natDigits
    split
    · intro e
      simp only [List.head?_cons, Option.some.injEq] at e
      have := congrArg Char.toNat e
      rw [toNat_ofNat_small _ (by omega)] at this
      simp at this
      omega
    · have h1 := ih (n / 10) (by omega) (by omega)
      obtain ⟨f', rfl⟩ : ∃ f', f = f' + 1 := ⟨f - 1, by omega⟩
      have h2 := natDigits_ne_nil f' (n / 10)
      cases hd : natDigits (f' + 1) (n / 10) with
      | nil => exact absurd hd h2
      | cons a as =>
        rw [hd] at h1
        simpa using h1

theorem natDigits_no_leading_zero (n : Nat) :
    ¬ (1 < (natDigits (n + 1) n).length ∧ (natDigits (n + 1) n).head? = some '0') := by
  rintro ⟨h1, h2⟩
  by_cases h0 : n = 0
  · subst h0
    simp [natDigits] at h1
  · exact natDigits_head_ne_zero (n + 1) n (by omega) (by omega) h2

theorem takeWhile_digits_append (ds rest : List Char) (hd : ∀ c ∈ ds, isDigit c = true)
    (hr : numberEnds rest) : (ds ++ rest).takeWhile isDigit = ds := by
  induction ds with
  | nil =>
    cases rest with
    | nil => rfl
    | cons c r => simp [List.takeWhile_cons, hr.1]
  | cons a as ih =>
    simp [List.takeWhile_cons, hd a (List.mem_cons_self _ _),
      ih (fun c hc => hd c (List.mem_cons_of_mem _ hc))]

theorem dropWhile_digits_append (ds rest : List Char) (hd : ∀ c ∈ ds, isDigit c = true)
    (hr : numberEnds rest) : (ds ++ rest).dropWhile isDigit = rest := by
  induction ds with
  | nil =>
    cases rest with
    | nil => rfl
    | cons c r => simp [List.dropWhile_cons, hr.1]
  | cons a as ih =>
    simp [List.dropWhile_cons, hd a (List.mem_cons_self _ _),
      ih (fun c hc => hd c (List.mem_cons_of_mem _ hc))]

theorem parseFraction_of_numberEnds (rest : List Char) (hr : numberEnds rest) :
    parseFraction rest = some ([], rest) := by
  cases rest with
  | nil => rfl
  | cons c r => simp [parseFraction, hr.2.1]

theorem parseExponent_of_numberEnds (rest : List Char) (hr : numberEnds rest) :
    parseExponent rest = some (0, rest) := by
  cases rest with
  | nil => rfl
  | cons c r => simp [parseExponent, hr.2.2.1, hr.2.2.2]

theorem parseUnsigned_natDigits (n : Nat) (rest : List Char) (hr : numberEnds rest) :
    parseUnsigned (natDigits (n + 1) n ++ rest) = some ((n : ℚ), rest) := by
  have hd := natDigits_isDigit (n + 1) n
  unfold parseUnsigned
  rw [takeWhile_digits_append _ _ hd hr, dropWhile_digits_append _ _ hd hr,
    if_neg (natDigits_ne_nil n n), if_neg (natDigits_no_leading_zero n),
    parseFraction_of_numberEnds rest hr]
  simp only [parseExponent_of_numberEnds rest hr, natDigits_value (n + 1) n (by omega)]
  simp [digitsValue]

theorem parseNumber_intToString (i : Int) (rest : List Char) (hr : numberEnds rest) :
    parseNumber (intToString i ++ rest) = some ((i : ℚ), rest) := by
  unfold intToString
  by_cases hi : i < 0
  · rw [if_pos hi]
    simp only [List.cons_append, parseNumber, if_true, parseUnsigned_natDigits _ rest hr,
      Option.map_some', Option.some.injEq, Prod.mk.injEq, and_true]
    have h1 : ((i.natAbs : Nat) : Int) = -i := Int.ofNat_natAbs_of_nonpos (by omega)
    have h2 : ((i.natAbs : Nat) : ℚ) = -(i : ℚ) := by
      rw [← Int.cast_natCast, h1, Int.cast_neg]
    rw [h2, neg_neg]
  · rw [if_neg hi]
    have hne := natDigits_ne_nil i.natAbs i.natAbs
    have hd := natDigits_isDigit (i.natAbs + 1) i.natAbs
    cases hl : natDigits (i.natAbs + 1) i.natAbs with
    | nil => exact absurd hl hne
    | cons c r =>
      have hc : isDigit c = true := hd c (by rw [hl]; exact List.mem_cons_self _ _)
      have hm : c ≠ '-' := by
        intro e
        subst e
        simp [isDigit] at hc
      simp only [List.cons_append, parseNumber, if_neg hm]
      rw [← List.cons_append, ← hl, parseUnsigned_natDigits _ rest hr]
      have h1 : ((i.natAbs : Nat) : Int) = i := Int.natAbs_of_nonneg (by omega)
      have h2 : ((i.natAbs : Nat) : ℚ) = (i : ℚ) := by
        rw [← Int.cast_natCast, h1]
      rw [h2]

/-! ## Reading back what `JSON.stringify` wrote: values -/

theorem jsValue_induction {P : JSValue → Prop} (hnull : P JSValue.null)
    (hbool : ∀ b, P (JSValue.bool b)) (hnum : ∀ q, P (JSValue.num q))
    (hstr : ∀ s, P (JSValue.str s))
    (harr : ∀ items, (∀ x ∈ items, P x) → P (JSValue.arr items))
    (hobj : ∀ props : List (String × JSValue), (∀ p ∈ props, P p.2) → P (JSValue.obj props)) :
    ∀ v, P v :=
  @JSValue.rec P (fun items => ∀ x ∈ items, P x) (fun props => ∀ p ∈ props, P p.2)
    (fun p => P p.2) hnull hbool hnum hstr harr hobj
    (fun x hx => absurd hx (List.not_mem_nil x))
    (fun head tail hh ht x hx => by
      rcases List.mem_cons.mp hx with e | e
      · exact e ▸ hh
      · exact ht x e)
    (fun p hp => absurd hp (List.not_mem_nil p))
    (fun head tail hh ht p hp => by
      rcases List.mem_cons.mp hp with e | e
      · exact e ▸ hh
      · exact ht p e)
    (fun _ _ h => h)

theorem skipWs_cons (c : Char) (r : List Char) (h : isJsonWs c = false) :
    skipWs (c :: r) = c :: r := by
  simp [skipWs, List.dropWhile_cons, h]

theorem intToString_head (i : Int) :
    ∃ c r, intToString i = c :: r ∧ (c = '-' ∨ isDigit c = true) := by
  unfold intToString
  split
  · exact ⟨_, _, rfl, Or.inl rfl⟩
  · have hne := natDigits_ne_nil i.natAbs i.natAbs
    have hd := natDigits_isDigit (i.natAbs + 1) i.natAbs
    cases hl : natDigits (i.natAbs + 1) i.natAbs with
    | nil => exact absurd hl hne
    | cons c r =>
      exact ⟨c, r, rfl, Or.inr (hd c (by rw [hl]; exact List.mem_cons_self _ _))⟩

theorem numberStart_facts (c : Char) (h : c = '-' ∨ isDigit c = true) :
    isJsonWs c = false ∧ c ≠ 'n' ∧ c ≠ 't' ∧ c ≠ 'f' ∧ c ≠ '"' ∧ c ≠ '[' ∧ c ≠ '{'
      ∧ c ≠ ']' ∧ c ≠ '}' := by
  rcases h with h | h
  · subst h
    decide
  · simp only [isDigit, decide_eq_true_eq] at h
    refine ⟨?_, ?_, ?_, ?_, ?_, ?_, ?_, ?_, ?_⟩
    · simp only [isJsonWs, decide_eq_false_iff_not]
      omega
    all_goals
      intro e
      subst e
      simp at h

/-- The first character of the text of a value is not white space and closes
neither an array nor an object. -/
theorem stringifyValue_head (v : JSValue) (hv : Plain v) :
    ∃ c r, stringifyValue v = c :: r ∧ isJsonWs c = false ∧ c ≠ ']' ∧ c ≠ '}' := by
  cases hv with
  | null => exact ⟨_, _, rfl, by decide, by decide, by decide⟩
  | bool b =>
    cases b
    · exact ⟨_, _, rfl, by decide, by decide, by decide⟩
    · exact ⟨_, _, rfl, by decide, by decide, by decide⟩
  | num q h =>
    obtain ⟨c, r, h1, h2⟩ := intToString_head q.num
    have hf := numberStart_facts c h2
    refine ⟨c, r, ?_, hf.1, hf.2.2.2.2.2.2.2.1, hf.2.2.2.2.2.2.2.2⟩
    simp [stringifyValue, numberToString, h, h1]
  | str s => exact ⟨_, _, rfl, by decide, by decide, by decide⟩
  | arr items h =>
    cases items with
    | nil => exact ⟨_, _, rfl, by decide, by decide, by decide⟩
    | cons x xs => exact ⟨_, _, rfl, by decide, by decide, by decide⟩
  | obj props hk h =>
    cases props with
    | nil => exact ⟨_, _, rfl, by decide, by decide, by decide⟩
    | cons p ps =>
      obtain ⟨k, v⟩ := p
      exact ⟨_, _, rfl, by decide, by decide, by decide⟩

theorem stringifyValue_length_pos (v : JSValue) (hv : Plain v) :
    0 < (stringifyValue v).length := by
  obtain ⟨c, r, h, _⟩ := stringifyValue_head v hv
  rw [h]
  simp

theorem stringifyElements_head (xs : List JSValue) :
    ∃ c r, stringifyElements xs = c :: r ∧ (c = ',' ∨ c = ']') := by
  cases xs with
  | nil => exact ⟨_, _, rfl, Or.inr rfl⟩
  | cons x xs => exact ⟨_, _, rfl, Or.inl rfl⟩

theorem stringifyMembers_head (ps : List (String × JSValue)) :
    ∃ c r, stringifyMembers ps = c :: r ∧ (c = ',' ∨ c = '}') := by
  cases ps with
  | nil => exact ⟨_, _, rfl, Or.inr rfl⟩
  | cons p ps =>
    obtain ⟨k, v⟩ := p
    exact ⟨_, _, rfl, Or.inl rfl⟩

theorem numberEnds_of_head (c : Char) (r : List Char)
    (h : c = ',' ∨ c = ']' ∨ c = '}') : numberEnds (c :: r) := by
  rcases h with h | h | h <;> subst h <;> exact ⟨by decide, by decide, by decide, by decide⟩

theorem numberEnds_elements (xs : List JSValue) (rest : List Char) :
    numberEnds (stringifyElements xs ++ rest) := by
  obtain ⟨c, r, h, hc⟩ := stringifyElements_head xs
  rw [h]
  exact numberEnds_of_head c _ (by rcases hc with e | e <;> simp [e])

theorem numberEnds_members (ps : List (String × JSValue)) (rest : List Char) :
    numberEnds (stringifyMembers ps ++ rest) := by
  obtain ⟨c, r, h, hc⟩ := stringifyMembers_head ps
  rw [h]
  exact numberEnds_of_head c _ (by rcases hc with e | e <;> simp [e])

theorem parseElements_stringify (xs : List JSValue) :
    ∀ (x : JSValue) (acc : List JSValue) (fuel : Nat) (rest : List Char),
      ReadsBack x → (∀ y ∈ xs, ReadsBack y) → Plain x → (∀ y ∈ xs, Plain y) →
      (stringifyValue x).length + (stringifyElements xs).length ≤ fuel →
      parseElements fuel (stringifyValue x ++ (stringifyElements xs ++ rest)) acc
        = some (JSValue.arr (acc ++ x :: xs), rest) := by
  induction xs with
  | nil =>
    intro x acc fuel rest hx _ hpx _ hlen
    simp only [stringifyElements, List.length_singleton] at hlen
    obtain ⟨g, rfl⟩ : ∃ g, fuel = g + 1 := ⟨fuel - 1, by omega⟩
    have h1 := hx g ([']'] ++ rest) (by omega) (numberEnds_elements [] rest)
    simp only [stringifyElements, parseElements, h1]
    rw [List.singleton_append, skipWs_cons _ _ (by decide)]
    simp
  | cons y ys ih =>
    intro x acc fuel rest hx hxs hpx hpxs hlen
    have hposx := stringifyValue_length_pos x hpx
    simp only [stringifyElements, List.length_cons, List.length_append] at hlen
    obtain ⟨g, rfl⟩ : ∃ g, fuel = g + 1 := ⟨fuel - 1, by omega⟩
    have h1 := hx g (stringifyElements (y :: ys) ++ rest) (by omega)
      (numberEnds_elements (y :: ys) rest)
    simp only [parseElements, h1]
    simp only [stringifyElements, List.cons_append]
    rw [skipWs_cons _ _ (by decide)]
    simp only [if_true, List.append_assoc]
    rw [ih y (acc ++ [x]) g rest (hxs y (List.mem_cons_self _ _))
      (fun z hz => hxs z (List.mem_cons_of_mem _ hz)) (hpxs y (List.mem_cons_self _ _))
      (fun z hz => hpxs z (List.mem_cons_of_mem _ hz)) (by omega)]
    simp

theorem quoteString_length (k : String) : 2 ≤ (quoteString k).length := by
  simp [quoteString]

theorem parseValue_quote (g : Nat) (r : List Char) :
    parseValue (g + 1) ('"' :: r)
      = (parseStringBody r.length r).map (fun p => (JSValue.str (String.mk p.1), p.2)) := by
  rw [parseValue, skipWs_cons _ _ (by decide)]
  rfl

theorem parseValue_emptyArray (g : Nat) (rest : List Char) :
    parseValue (g + 1) ('[' :: ']' :: rest) = some (JSValue.arr [], rest) := by
  rw [parseValue, skipWs_cons _ _ (by decide)]
  simp only [Char.reduceEq, if_false, if_true]
  rw [skipWs_cons _ _ (by decide)]
  rfl

theorem parseValue_bracket (g : Nat) (c1 : Char) (r1 : List Char) (h1 : isJsonWs c1 = false)
    (h2 : c1 ≠ ']') : parseValue (g + 1) ('[' :: c1 :: r1) = parseElements g (c1 :: r1) [] := by
  rw [parseValue, skipWs_cons _ _ (by decide)]
  simp only [Char.reduceEq, if_false, if_true]
  rw [skipWs_cons _ _ h1]
  simp only [if_neg h2]

theorem parseValue_emptyObject (g : Nat) (rest : List Char) :
    parseValue (g + 1) ('{' :: '}' :: rest) = some (JSValue.obj [], rest) := by
  rw [parseValue, skipWs_cons _ _ (by decide)]
  simp only [Char.reduceEq, if_false, if_true]
  rw [skipWs_cons _ _ (by decide)]
  rfl

theorem parseValue_brace (g : Nat) (r1 : List Char) :
    parseValue (g + 1) ('{' :: '"' :: r1) = parseMembers g ('"' :: r1) [] := by
  rw [parseValue, skipWs_cons _ _ (by decide)]
  simp only [Char.reduceEq, if_false, if_true]
  rw [skipWs_cons _ _ (by decide)]
  rfl

theorem parseMembers_step (g : Nat) (k : String) (v : JSValue) (acc : List (String × JSValue))
    (r2 r3 r4 : List Char) (d : Char) (hv : parseValue g r2 = some (v, r3))
    (hd : skipWs r3 = d :: r4) :
    parseMembers (g + 1) (quoteString k ++ ':' :: r2) acc
      = if d = ',' then parseMembers g r4 (objSet acc k v)
        else if d = '}' then some (JSValue.obj (objSet acc k v), r4)
        else none := by
  have e : quoteString k ++ ':' :: r2 = '"' :: (escapeChars k.data ++ '"' :: (':' :: r2)) := by
    simp [quoteString]
  rw [e, parseMembers, skipWs_cons _ _ (by decide)]
  simp only [if_true, parseStringBody_quoteString]
  rw [skipWs_cons _ _ (by decide)]
  simp only [if_true, hv, hd]

theorem parseMembers_stringify (ps : List (String × JSValue)) :
    ∀ (k : String) (v : JSValue) (acc : List (String × JSValue)) (fuel : Nat) (rest : List Char),
      ReadsBack v → (∀ p ∈ ps, ReadsBack p.2) → Plain v → (∀ p ∈ ps, Plain p.2) →
      ((acc ++ (k, v) :: ps).map Prod.fst).Nodup →
      (quoteString k).length + 1 + (stringifyValue v).length + (stringifyMembers ps).length
        ≤ fuel →
      parseMembers fuel
          (quoteString k ++ ':' :: (stringifyValue v ++ (stringifyMembers ps ++ rest))) acc
        = some (JSValue.obj (acc ++ (k, v) :: ps), rest) := by
  induction ps with
  | nil =>
    intro k v acc fuel rest hv _ hpv _ hnd hlen
    have hq := quoteString_length k
    simp only [stringifyMembers, List.length_singleton] at hlen
    obtain ⟨g, rfl⟩ : ∃ g, fuel = g + 1 := ⟨fuel - 1, by omega⟩
    have h1 := hv g (stringifyMembers [] ++ rest) (by omega) (numberEnds_members [] rest)
    have hk : k ∉ objKeys acc := by
      intro hm
      rw [List.map_append, List.nodup_append] at hnd
      exact hnd.2.2 hm (by simp)
    rw [parseMembers_step g k v acc _ _ rest '}' h1 (skipWs_cons _ _ (by decide)),
      objSet_of_not_mem acc k v hk]
    simp
  | cons p ps ih =>
    intro k v acc fuel rest hv hps hpv hpps hnd hlen
    obtain ⟨k2, v2⟩ := p
    have hq := quoteString_length k
    have hposv := stringifyValue_length_pos v hpv
    simp only [stringifyMembers, List.length_cons, List.length_append] at hlen
    obtain ⟨g, rfl⟩ : ∃ g, fuel = g + 1 := ⟨fuel - 1, by omega⟩
    have h1 := hv g (stringifyMembers ((k2, v2) :: ps) ++ rest) (by omega)
      (numberEnds_members ((k2, v2) :: ps) rest)
    have hk : k ∉ objKeys acc := by
      intro hm
      rw [List.map_append, List.nodup_append] at hnd
      exact hnd.2.2 hm (by simp)
    have hnd2 : (((acc ++ [(k, v)]) ++ (k2, v2) :: ps).map Prod.fst).Nodup := by
      simpa using hnd
    have hnext := ih k2 v2 (acc ++ [(k, v)]) g rest (hps (k2, v2) (List.mem_cons_self _ _))
      (fun q hq => hps q (List.mem_cons_of_mem _ hq)) (hpps (k2, v2) (List.mem_cons_self _ _))
      (fun q hq => hpps q (List.mem_cons_of_mem _ hq)) hnd2 (by omega)
    have hd : skipWs (stringifyMembers ((k2, v2) :: ps) ++ rest)
        = ',' :: (quoteString k2 ++ ':' :: (stringifyValue v2 ++ (stringifyMembers ps ++ rest))) := by
      simp only [stringifyMembers, List.cons_append, List.append_assoc]
      exact skipWs_cons _ _ (by decide)
    rw [parseMembers_step g k v acc _ _ _ ',' h1 hd, objSet_of_not_mem acc k v hk, if_pos rfl,
      hnext]
    simp

/-- The parser reads back the text of every plain value. -/
theorem readsBack_of_plain : ∀ v, Plain v → ReadsBack v := by
  apply jsValue_induction
  · intro _ fuel rest hlen _
    simp only [stringifyValue, List.length_cons, List.length_nil] at hlen
    obtain ⟨g, rfl⟩ : ∃ g, fuel = g + 1 := ⟨fuel - 1, by omega⟩
    simp only [stringifyValue, List.cons_append, List.nil_append, parseValue]
    rw [skipWs_cons _ _ (by decide)]
    simp [expectChars]
  · intro b _ fuel rest hlen _
    cases b
    · simp only [stringifyValue, List.length_cons, List.length_nil] at hlen
      obtain ⟨g, rfl⟩ : ∃ g, fuel = g + 1 := ⟨fuel - 1, by omega⟩
      simp only [stringifyValue, List.cons_append, List.nil_append, parseValue]
      rw [skipWs_cons _ _ (by decide)]
      simp [expectChars]
    · simp only [stringifyValue, List.length_cons, List.length_nil] at hlen
      obtain ⟨g, rfl⟩ : ∃ g, fuel = g + 1 := ⟨fuel - 1, by omega⟩
      simp only [stringifyValue, List.cons_append, List.nil_append, parseValue]
      rw [skipWs_cons _ _ (by decide)]
      simp [expectChars]
  · intro q hp fuel rest hlen hr
    cases hp with
    | num _ hden =>
      have hpos := stringifyValue_length_pos (JSValue.num q) (Plain.num q hden)
      obtain ⟨g, rfl⟩ : ∃ g, fuel = g + 1 := ⟨fuel - 1, by omega⟩
      have hs : stringifyValue (JSValue.num q) = intToString q.num := by
        simp [stringifyValue, numberToString, hden]
      obtain ⟨c, r, h1, h2⟩ := intToString_head q.num
      have hf := numberStart_facts c h2
      have hnum := parseNumber_intToString q.num rest hr
      rw [hs]
      rw [h1] at hnum ⊢
      simp only [List.cons_append, parseValue]
      rw [skipWs_cons _ _ hf.1]
      simp only [if_neg hf.2.1, if_neg hf.2.2.1, if_neg hf.2.2.2.1, if_neg hf.2.2.2.2.1,
        if_neg hf.2.2.2.2.2.1, if_neg hf.2.2.2.2.2.2.1]
      rw [if_pos h2]
      simp only [List.cons_append] at hnum
      rw [hnum]
      simp [Rat.coe_int_num_of_den_eq_one hden]
  · intro s _ fuel rest hlen _
    have hq := quoteString_length s
    simp only [stringifyValue] at hlen
    obtain ⟨g, rfl⟩ : ∃ g, fuel = g + 1 := ⟨fuel - 1, by omega⟩
    have e : stringifyValue (JSValue.str s) ++ rest
        = '"' :: (escapeChars s.data ++ '"' :: rest) := by
      simp [stringifyValue, quoteString]
    rw [e, parseValue_quote, parseStringBody_quoteString]
    rfl
  · intro items ih hp fuel rest hlen _
    cases hp with
    | arr _ hall =>
      cases items with
      | nil =>
        simp only [stringifyValue, List.length_cons, List.length_nil] at hlen
        obtain ⟨g, rfl⟩ : ∃ g, fuel = g + 1 := ⟨fuel - 1, by omega⟩
        exact parseValue_emptyArray g rest
      | cons x xs =>
        simp only [stringifyValue, List.length_cons, List.length_append] at hlen
        obtain ⟨g, rfl⟩ : ∃ g, fuel = g + 1 := ⟨fuel - 1, by omega⟩
        have hpx := hall x (List.mem_cons_self _ _)
        obtain ⟨c, r, h1, h2, h3, _⟩ := stringifyValue_head x hpx
        have hloop := parseElements_stringify xs x [] g rest
          (ih x (List.mem_cons_self _ _) hpx)
          (fun y hy => ih y (List.mem_cons_of_mem _ hy) (hall y (List.mem_cons_of_mem _ hy)))
          hpx (fun y hy => hall y (List.mem_cons_of_mem _ hy)) (by omega)
        have e : stringifyValue (JSValue.arr (x :: xs)) ++ rest
            = '[' :: c :: (r ++ (stringifyElements xs ++ rest)) := by
          simp [stringifyValue, h1]
        rw [h1] at hloop
        rw [e, parseValue_bracket g c _ h2 h3]
        simpa using hloop
  · intro props ih hp fuel rest hlen _
    cases hp with
    | obj _ hk hall =>
      cases props with
      | nil =>
        simp only [stringifyValue, List.length_cons, List.length_nil] at hlen
        obtain ⟨g, rfl⟩ : ∃ g, fuel = g + 1 := ⟨fuel - 1, by omega⟩
        exact parseValue_emptyObject g rest
      | cons p ps =>
        obtain ⟨k, v⟩ := p
        simp only [stringifyValue, List.length_cons, List.length_append] at hlen
        obtain ⟨g, rfl⟩ : ∃ g, fuel = g + 1 := ⟨fuel - 1, by omega⟩
        have hpv := hall (k, v) (List.mem_cons_self _ _)
        have hloop := parseMembers_stringify ps k v [] g rest
          (ih (k, v) (List.mem_cons_self _ _) hpv)
          (fun q hq => ih q (List.mem_cons_of_mem _ hq) (hall q (List.mem_cons_of_mem _ hq)))
          hpv (fun q hq => hall q (List.mem_cons_of_mem _ hq)) (by simpa using hk) (by omega)
        have e : stringifyValue (JSValue.obj ((k, v) :: ps)) ++ rest
            = '{' :: '"' :: (escapeChars k.data ++ '"'
                :: (':' :: (stringifyValue v ++ (stringifyMembers ps ++ rest)))) := by
          simp [stringifyValue, quoteString]
        have e2 : quoteString k ++ ':' :: (stringifyValue v ++ (stringifyMembers ps ++ rest))
            = '"' :: (escapeChars k.data ++ '"'
                :: (':' :: (stringifyValue v ++ (stringifyMembers ps ++ rest)))) := by
          simp [quoteString]
        rw [e2] at hloop
        rw [e, parseValue_brace, hloop]
        simp

/-- `JSON.parse(JSON.stringify(v))` is `v` for every plain value. -/
theorem jsonParse_jsonStringify (v : JSValue) (hv : Plain v) :
    jsonParse (jsonStringify v) = some v := by
  have h := readsBack_of_plain v hv (2 * (stringifyValue v).length + 2) []
    (by omega) trivial
  rw [List.append_nil] at h
  simp [jsonParse, jsonStringify, String.length, h, skipWs]

/-! ## loadData -/

theorem plain_habitToJS (h : Habit) : Plain (habitToJS h) := by
  have hk : (["id", "name", "createdAt"] : List String).Nodup := by decide
  refine Plain.obj _ hk ?_
  intro p hp
  simp only [List.mem_cons, List.mem_singleton, List.not_mem_nil, or_false] at hp
  rcases hp with e | e | e
  · rw [e]
    exact Plain.str _
  · rw [e]
    exact Plain.str _
  · rw [e]
    exact Plain.num _ (Rat.den_natCast _)

theorem plain_dayToJS (day : JSObject Bool) (hd : (objKeys day).Nodup) : Plain (dayToJS day) := by
  refine Plain.obj _ ?_ ?_
  · simpa [objKeys, List.map_map, Function.comp_def] using hd
  · intro p hp
    obtain ⟨q, _, rfl⟩ := List.mem_map.mp hp
    exact Plain.bool _

theorem plain_trackingToJS (t : JSObject (JSObject Bool)) (hwf : (objKeys t).Nodup)
    (hdays : ∀ p ∈ t, (objKeys p.2).Nodup) : Plain (trackingToJS t) := by
  refine Plain.obj _ ?_ ?_
  · simpa [objKeys, List.map_map, Function.comp_def] using hwf
  · intro p hp
    obtain ⟨q, hq, rfl⟩ := List.mem_map.mp hp
    exact plain_dayToJS q.2 (hdays q hq)

theorem plain_toJS (d : AppData) (hwf : (objKeys d.tracking).Nodup)
    (hdays : ∀ p ∈ d.tracking, (objKeys p.2).Nodup) : Plain (toJS d) := by
  have hk : (["habits", "tracking"] : List String).Nodup := by decide
  refine Plain.obj _ hk ?_
  intro p hp
  simp only [List.mem_cons, List.mem_singleton, List.not_mem_nil, or_false] at hp
  rcases hp with e | e
  · rw [e]
    refine Plain.arr _ ?_
    intro x hx
    obtain ⟨h, _, rfl⟩ := List.mem_map.mp hx
    exact plain_habitToJS h
  · rw [e]
    exact plain_trackingToJS d.tracking hwf hdays

theorem habitToJS_injective : Function.Injective habitToJS := by
  intro a b h
  obtain ⟨ai, an, ac⟩ := a
  obtain ⟨bi, bn, bc⟩ := b
  simp only [habitToJS, JSValue.obj.injEq, List.cons.injEq, Prod.mk.injEq, true_and,
    JSValue.str.injEq, JSValue.num.injEq, Nat.cast_inj, and_true] at h
  obtain ⟨h1, h2, h3⟩ := h
  subst h1 h2 h3
  rfl

theorem dayToJS_injective : Function.Injective dayToJS := by
  intro a b h
  simp only [dayToJS, JSValue.obj.injEq] at h
  refine List.map_injective_iff.mpr ?_ h
  intro p q hpq
  obtain ⟨p1, p2⟩ := p
  obtain ⟨q1, q2⟩ := q
  simp only [Prod.mk.injEq, JSValue.bool.injEq] at hpq
  rw [hpq.1, hpq.2]

theorem trackingToJS_injective : Function.Injective trackingToJS := by
  intro a b h
  simp only [trackingToJS, JSValue.obj.injEq] at h
  refine List.map_injective_iff.mpr ?_ h
  intro p q hpq
  obtain ⟨p1, p2⟩ := p
  obtain ⟨q1, q2⟩ := q
  simp only [Prod.mk.injEq] at hpq
  rw [hpq.1, dayToJS_injective hpq.2]

/-- Different application states have different JavaScript values. -/
theorem toJS_injective : Function.Injective toJS := by
  intro a b h
  obtain ⟨ah, at_⟩ := a
  obtain ⟨bh, bt⟩ := b
  simp only [toJS, JSValue.obj.injEq, List.cons.injEq, Prod.mk.injEq, true_and,
    JSValue.arr.injEq, and_true] at h
  obtain ⟨h1, h2⟩ := h
  rw [List.map_injective_iff.mpr habitToJS_injective h1, trackingToJS_injective h2]

theorem jsonStringify_toJS_ne_empty (d : AppData) : jsonStringify (toJS d) ≠ "" := by
  intro e
  have := congrArg String.data e
  simp [jsonStringify, toJS, stringifyValue] at this

/-- C3.  For every state whose objects have distinct property names (as every
JavaScript object has), `saveData` followed by `loadData` makes `appData` the
JavaScript value of the state that was saved, whatever `appData` held in
between, and that value belongs to no other state: habits, their order and the
tracking entries all come back. -/
theorem loadData_after_saveData (s : Store) (current : JSValue)
    (hwf : (objKeys s.appData.tracking).Nodup)
    (hdays : ∀ p ∈ s.appData.tracking, (objKeys p.2).Nodup) :
    loadData current (saveData s).localStorage = toJS s.appData
    ∧ ∀ d, loadData current (saveData s).localStorage = toJS d ↔ d = s.appData := by
  have h : loadData current (saveData s).localStorage = toJS s.appData := by
    simp only [loadData, saveData, objGet_objSet_self,
      if_neg (jsonStringify_toJS_ne_empty s.appData),
      jsonParse_jsonStringify _ (plain_toJS s.appData hwf hdays)]
  refine ⟨h, fun d => ?_⟩
  rw [h]
  constructor
  · intro e
    exact toJS_injective e.symm
  · intro e
    rw [e]

/-- C3, at a state with two habits, one of them with a quote and a line break
in its name, and two tracked days. -/
theorem loadData_after_saveData_witness :
    loadData JSValue.null (saveData (Store.mk (AppData.mk
        [Habit.mk "loyw3v284fzzzxjylrx" "read \"Dune\"\n" 1700000000000, Habit.mk "B" "run" 2]
        [("2024-01-01", [("loyw3v284fzzzxjylrx", true), ("B", true)]),
          ("2024-01-02", [("B", true)])]) [])).localStorage
      = toJS (AppData.mk
        [Habit.mk "loyw3v284fzzzxjylrx" "read \"Dune\"\n" 1700000000000, Habit.mk "B" "run" 2]
        [("2024-01-01", [("loyw3v284fzzzxjylrx", true), ("B", true)]),
          ("2024-01-02", [("B", true)])]) :=
  (loadData_after_saveData (Store.mk (AppData.mk
      [Habit.mk "loyw3v284fzzzxjylrx" "read \"Dune\"\n" 1700000000000, Habit.mk "B" "run" 2]
      [("2024-01-01", [("loyw3v284fzzzxjylrx", true), ("B", true)]),
        ("2024-01-02", [("B", true)])]) []) JSValue.null (by decide) (by decide)).1

/-- C4 as stated fails for text that is JSON but not an AppData document.
Starting from the empty state, with `null`, `42` or `{}` stored, `loadData`
makes `appData` the parsed value: `null`, a number, the object without
properties.  None of them is the empty AppData. -/
theorem loadData_valid_json_counterexample :
    loadData (toJS emptyAppData) [(STORAGE_KEY, "null")] = JSValue.null
    ∧ (∃ q, loadData (toJS emptyAppData) [(STORAGE_KEY, "42")] = JSValue.num q)
    ∧ loadData (toJS emptyAppData) [(STORAGE_KEY, "\x7b\x7d")] = JSValue.obj []
    ∧ loadData (toJS emptyAppData) [(STORAGE_KEY, "null")] ≠ toJS emptyAppData
    ∧ loadData (toJS emptyAppData) [(STORAGE_KEY, "42")] ≠ toJS emptyAppData
    ∧ loadData (toJS emptyAppData) [(STORAGE_KEY, "\x7b\x7d")] ≠ toJS emptyAppData := by
  have h1 : loadData (toJS emptyAppData) [(STORAGE_KEY, "null")] = JSValue.null := rfl
  have h2 : ∃ q, loadData (toJS emptyAppData) [(STORAGE_KEY, "42")] = JSValue.num q := ⟨_, rfl⟩
  have h3 : loadData (toJS emptyAppData) [(STORAGE_KEY, "\x7b\x7d")] = JSValue.obj [] := rfl
  refine ⟨h1, h2, h3, ?_, ?_, ?_⟩
  · rw [h1]
    simp [toJS]
  · obtain ⟨q, hq⟩ := h2
    rw [hq]
    simp [toJS]
  · rw [h3]
    simp [toJS]

/-- C4, amended.  With a string stored under the key: if the string is not
empty and `JSON.parse` throws on it, `loadData` completes and `appData` is the
empty AppData; if `JSON.parse` returns a value, `appData` is that value,
whatever its structure; if the string is empty, `appData` is left as it was,
which at start-up is the empty AppData. -/
theorem loadData_recovers_from_syntax_errors (current : JSValue) (localStorage : JSObject String)
    (stored : String) (hget : objGet localStorage STORAGE_KEY = some stored) :
    (stored ≠ "" → jsonParse stored = none → loadData current localStorage = toJS emptyAppData)
    ∧ (stored ≠ "" → ∀ v, jsonParse stored = some v → loadData current localStorage = v)
    ∧ (stored = "" → loadData current localStorage = current) := by
  refine ⟨?_, ?_, ?_⟩
  · intro hne hp
    simp [loadData, hget, hne, hp]
  · intro hne v hp
    simp [loadData, hget, hne, hp]
  · intro he
    simp [loadData, hget, he]

/-- C4 amended, at a stored text that is not JSON. -/
theorem loadData_recovers_from_syntax_errors_witness :
    jsonParse "\x7b\"habits\": [oops" = none
    ∧ loadData JSValue.null [(STORAGE_KEY, "\x7b\"habits\": [oops")] = toJS emptyAppData :=
  ⟨rfl, (loadData_recovers_from_syntax_errors JSValue.null
    [(STORAGE_KEY, "\x7b\"habits\": [oops")] "\x7b\"habits\": [oops" rfl).1 (by decide) rfl⟩

/-! ## The fuel of the parser -/

theorem skipWs_length (cs : List Char) : (skipWs cs).length ≤ cs.length :=
  (List.dropWhile_sublist _).length_le

theorem length_of_skipWs_eq (cs r : List Char) (c : Char) (h : skipWs cs = c :: r) :
    r.length + 1 ≤ cs.length := by
  have := skipWs_length cs
  rw [h] at this
  simpa using this

theorem expectChars_length (p : List Char) :
    ∀ (cs r : List Char), expectChars p cs = some r → r.length ≤ cs.length := by
  induction p with
  | nil =>
    intro cs r h
    cases cs <;> simp [expectChars] at h <;> simp [← h]
  | cons a as ih =>
    intro cs r h
    cases cs with
    | nil => simp [expectChars] at h
    | cons c cs =>
      by_cases hac : a = c
      · simp only [expectChars, hac, if_true] at h
        have := ih cs r h
        simp
        omega
      · simp [expectChars, hac] at h

theorem hex4_length (cs r : List Char) (n : Nat) (h : hex4 cs = some (n, r)) :
    r.length + 4 = cs.length := by
  match cs, h with
  | a :: b :: c :: d :: rest, h =>
    simp only [hex4] at h
    split at h
    · simp only [Option.some.injEq, Prod.mk.injEq] at h
      rw [← h.2]
      simp
    · simp at h
  | [], h => simp [hex4] at h
  | [_], h => simp [hex4] at h
  | [_, _], h => simp [hex4] at h
  | [_, _, _], h => simp [hex4] at h

theorem lowSurrogate_length (cs r : List Char) (m : Nat) (h : lowSurrogate cs = some (m, r)) :
    r.length ≤ cs.length := by
  match cs, h with
  | b :: u :: rest, h =>
    simp only [lowSurrogate] at h
    split at h
    · split at h
      · rename_i m1 r1 hh
        split at h
        · simp only [Option.some.injEq, Prod.mk.injEq] at h
          have := hex4_length _ _ _ hh
          rw [← h.2]
          simp
          omega
        · simp at h
      · simp at h
    · simp at h
  | [], h => simp [lowSurrogate] at h
  | [_], h => simp [lowSurrogate] at h

theorem pushChar_eq_some (c : Char) (x : Option (List Char × List Char)) (s r : List Char)
    (h : pushChar c x = some (s, r)) : ∃ s1, x = some (s1, r) := by
  cases x with
  | none => simp [pushChar] at h
  | some p =>
    obtain ⟨p1, p2⟩ := p
    simp only [pushChar, Option.map_some', Option.some.injEq, Prod.mk.injEq] at h
    exact ⟨p1, by rw [h.2]⟩

theorem parseStringBody_length : ∀ (fuel : Nat) (cs s r : List Char),
    parseStringBody fuel cs = some (s, r) → r.length + 1 ≤ cs.length := by
  intro fuel
  induction fuel with
  | zero => intro cs s r h; simp [parseStringBody] at h
  | succ f ih =>
    intro cs s r h
    cases cs with
    | nil => simp [parseStringBody] at h
    | cons c rest =>
      simp only [parseStringBody] at h
      split at h
      · simp only [Option.some.injEq, Prod.mk.injEq] at h
        rw [← h.2]
        simp
      · split at h
        · cases rest with
          | nil => simp at h
          | cons e r0 =>
            simp only at h
            split at h
            · split at h
              · simp at h
              · rename_i n r1 hh
                have h4 := hex4_length _ _ _ hh
                split at h
                · split at h
                  · rename_i m r2 hl
                    have hl2 := lowSurrogate_length _ _ _ hl
                    obtain ⟨s1, hs1⟩ := pushChar_eq_some _ _ _ _ h
                    have := ih _ _ _ hs1
                    simp
                    omega
                  · obtain ⟨s1, hs1⟩ := pushChar_eq_some _ _ _ _ h
                    have := ih _ _ _ hs1
                    simp
                    omega
                · split at h
                  · obtain ⟨s1, hs1⟩ := pushChar_eq_some _ _ _ _ h
                    have := ih _ _ _ hs1
                    simp
                    omega
                  · obtain ⟨s1, hs1⟩ := pushChar_eq_some _ _ _ _ h
                    have := ih _ _ _ hs1
                    simp
                    omega
            · split at h
              · obtain ⟨s1, hs1⟩ := pushChar_eq_some _ _ _ _ h
                have := ih _ _ _ hs1
                simp
                omega
              · simp at h
        · split at h
          · simp at h
          · obtain ⟨s1, hs1⟩ := pushChar_eq_some _ _ _ _ h
            have := ih _ _ _ hs1
            simp
            omega

theorem dropWhile_length_le {α : Type} (p : α → Bool) (l : List α) :
    (l.dropWhile p).length ≤ l.length :=
  (List.dropWhile_sublist _).length_le

theorem parseFraction_length (cs fd r : List Char) (h : parseFraction cs = some (fd, r)) :
    r.length ≤ cs.length := by
  cases cs with
  | nil =>
    simp only [parseFraction, Option.some.injEq, Prod.mk.injEq] at h
    rw [← h.2]
  | cons c r0 =>
    simp only [parseFraction] at h
    split at h
    · split at h
      · simp at h
      · simp only [Option.some.injEq, Prod.mk.injEq] at h
        have := dropWhile_length_le isDigit r0
        rw [← h.2]
        simp
        omega
    · simp only [Option.some.injEq, Prod.mk.injEq] at h
      rw [← h.2]

theorem exponentDigits_length (sign : Int) (cs r : List Char) (e : Int)
    (h : exponentDigits sign cs = some (e, r)) : r.length ≤ cs.length := by
  simp only [exponentDigits] at h
  split at h
  · simp at h
  · simp only [Option.some.injEq, Prod.mk.injEq] at h
    rw [← h.2]
    exact dropWhile_length_le _ _

theorem parseExponent_length (cs r : List Char) (e : Int)
    (h : parseExponent cs = some (e, r)) : r.length ≤ cs.length := by
  cases cs with
  | nil =>
    simp only [parseExponent, Option.some.injEq, Prod.mk.injEq] at h
    rw [← h.2]
  | cons c r0 =>
    simp only [parseExponent] at h
    split at h
    · cases r0 with
      | nil => simp at h
      | cons s r1 =>
        simp only at h
        split at h
        · have := exponentDigits_length _ _ _ _ h
          simp
          omega
        · split at h
          · have := exponentDigits_length _ _ _ _ h
            simp
            omega
          · have := exponentDigits_length _ _ _ _ h
            simp at this ⊢
            omega
    · simp only [Option.some.injEq, Prod.mk.injEq] at h
      rw [← h.2]

theorem parseUnsigned_length (cs r : List Char) (q : ℚ)
    (h : parseUnsigned cs = some (q, r)) : r.length ≤ cs.length := by
  simp only [parseUnsigned] at h
  split at h
  · simp at h
  · split at h
    · simp at h
    · split at h
      · simp at h
      · rename_i fd r1 hf
        split at h
        · simp at h
        · rename_i e r2 he
          simp only [Option.some.injEq, Prod.mk.injEq] at h
          have h1 := parseFraction_length _ _ _ hf
          have h2 := parseExponent_length _ _ _ he
          have h3 := dropWhile_length_le isDigit cs
          rw [← h.2]
          omega

theorem parseNumber_length (cs r : List Char) (q : ℚ)
    (h : parseNumber cs = some (q, r)) : r.length ≤ cs.length := by
  cases cs with
  | nil => simp [parseNumber] at h
  | cons c r0 =>
    simp only [parseNumber] at h
    split at h
    · cases hu : parseUnsigned r0 with
      | none => simp [hu] at h
      | some p =>
        obtain ⟨q1, r1⟩ := p
        simp only [hu, Option.map_some', Option.some.injEq, Prod.mk.injEq] at h
        have := parseUnsigned_length _ _ _ hu
        rw [← h.2]
        simp
        omega
    · exact parseUnsigned_length _ _ _ h

theorem map_pair_eq_some {α β : Type} (g : α → β) (x : Option (α × List Char)) (v : β)
    (r : List Char) (h : x.map (fun p => (g p.1, p.2)) = some (v, r)) :
    ∃ a, x = some (a, r) := by
  cases x with
  | none => simp at h
  | some p =>
    obtain ⟨p1, p2⟩ := p
    simp only [Option.map_some', Option.some.injEq, Prod.mk.injEq] at h
    exact ⟨p1, by rw [h.2]⟩

theorem map_const_eq_some {β : Type} (b : β) (x : Option (List Char)) (v : β)
    (r : List Char) (h : x.map (fun r1 => (b, r1)) = some (v, r)) : x = some r := by
  cases x with
  | none => simp at h
  | some p =>
    simp only [Option.map_some', Option.some.injEq, Prod.mk.injEq] at h
    rw [h.2]

/-- No parser returns more text than it was given. -/
theorem parse_length : ∀ (fuel : Nat),
    (∀ (cs : List Char) (v : JSValue) (r : List Char),
      parseValue fuel cs = some (v, r) → r.length ≤ cs.length)
    ∧ (∀ (cs : List Char) (acc : List JSValue) (v : JSValue) (r : List Char),
      parseElements fuel cs acc = some (v, r) → r.length ≤ cs.length)
    ∧ (∀ (cs : List Char) (acc : List (String × JSValue)) (v : JSValue) (r : List Char),
      parseMembers fuel cs acc = some (v, r) → r.length ≤ cs.length) := by
  intro fuel
  induction fuel with
  | zero =>
    refine ⟨?_, ?_, ?_⟩
    · intro cs v r h
      simp [parseValue] at h
    · intro cs acc v r h
      simp [parseElements] at h
    · intro cs acc v r h
      simp [parseMembers] at h
  | succ f ih =>
    obtain ⟨ihV, ihE, ihM⟩ := ih
    refine ⟨?_, ?_, ?_⟩
    · intro cs v r h
      cases hs : skipWs cs with
      | nil => simp [parseValue, hs] at h
      | cons c r0 =>
        have hl := length_of_skipWs_eq cs r0 c hs
        simp only [parseValue, hs] at h
        split at h
        · have := expectChars_length _ _ _ (map_const_eq_some _ _ _ _ h)
          omega
        split at h
        · have := expectChars_length _ _ _ (map_const_eq_some _ _ _ _ h)
          omega
        split at h
        · have := expectChars_length _ _ _ (map_const_eq_some _ _ _ _ h)
          omega
        split at h
        · obtain ⟨a, ha⟩ := map_pair_eq_some (fun s => JSValue.str (String.mk s)) _ _ _ h
          have := parseStringBody_length _ _ _ _ ha
          omega
        split at h
        · cases hs1 : skipWs r0 with
          | nil => simp [hs1] at h
          | cons c1 r1 =>
            have hl1 := length_of_skipWs_eq r0 r1 c1 hs1
            simp only [hs1] at h
            split at h
            · simp only [Option.some.injEq, Prod.mk.injEq] at h
              rw [← h.2]
              omega
            · have := ihE _ _ _ _ h
              simp at this
              omega
        split at h
        · cases hs1 : skipWs r0 with
          | nil => simp [hs1] at h
          | cons c1 r1 =>
            have hl1 := length_of_skipWs_eq r0 r1 c1 hs1
            simp only [hs1] at h
            split at h
            · simp only [Option.some.injEq, Prod.mk.injEq] at h
              rw [← h.2]
              omega
            · have := ihM _ _ _ _ h
              simp at this
              omega
        split at h
        · obtain ⟨a, ha⟩ := map_pair_eq_some (fun q => JSValue.num q) _ _ _ h
          have := parseNumber_length _ _ _ ha
          simp at this
          omega
        · simp at h
    · intro cs acc v r h
      simp only [parseElements] at h
      cases hv : parseValue f cs with
      | none => simp [hv] at h
      | some p =>
        obtain ⟨v1, r1⟩ := p
        have hl := ihV _ _ _ hv
        simp only [hv] at h
        cases hs : skipWs r1 with
        | nil => simp [hs] at h
        | cons c r2 =>
          have hl2 := length_of_skipWs_eq r1 r2 c hs
          simp only [hs] at h
          split at h
          · have := ihE _ _ _ _ h
            omega
          · split at h
            · simp only [Option.some.injEq, Prod.mk.injEq] at h
              rw [← h.2]
              omega
            · simp at h
    · intro cs acc v r h
      simp only [parseMembers] at h
      cases hs : skipWs cs with
      | nil => simp [hs] at h
      | cons q r0 =>
        have hl := length_of_skipWs_eq cs r0 q hs
        simp only [hs] at h
        split at h
        · cases hk : parseStringBody r0.length r0 with
          | none => simp [hk] at h
          | some p =>
            obtain ⟨k, r1⟩ := p
            have hl1 := parseStringBody_length _ _ _ _ hk
            simp only [hk] at h
            cases hs1 : skipWs r1 with
            | nil => simp [hs1] at h
            | cons c r2 =>
              have hl2 := length_of_skipWs_eq r1 r2 c hs1
              simp only [hs1] at h
              split at h
              · cases hv : parseValue f r2 with
                | none => simp [hv] at h
                | some p2 =>
                  obtain ⟨v1, r3⟩ := p2
                  have hl3 := ihV _ _ _ hv
                  simp only [hv] at h
                  cases hs3 : skipWs r3 with
                  | nil => simp [hs3] at h
                  | cons d r4 =>
                    have hl4 := length_of_skipWs_eq r3 r4 d hs3
                    simp only [hs3] at h
                    split at h
                    · have := ihM _ _ _ _ h
                      omega
                    · split at h
                      · simp only [Option.some.injEq, Prod.mk.injEq] at h
                        rw [← h.2]
                        omega
                      · simp at h
              · simp at h
        · simp at h

/-- Fuel beyond the length of the text does not change what `parseStringBody` returns. -/
theorem parseStringBody_fuel : ∀ (f : Nat) (cs : List Char), cs.length ≤ f →
    ∀ g, f ≤ g → parseStringBody g cs = parseStringBody f cs := by
  intro f
  induction f with
  | zero =>
    intro cs hcs g _
    have : cs = [] := List.length_eq_zero.mp (by omega)
    subst this
    cases g <;> simp [parseStringBody]
  | succ f ih =>
    intro cs hcs g hg
    obtain ⟨g', rfl⟩ : ∃ g', g = g' + 1 := ⟨g - 1, by omega⟩
    cases cs with
    | nil => simp [parseStringBody]
    | cons c rest =>
      simp only [List.length_cons] at hcs
      have hrest : parseStringBody g' rest = parseStringBody f rest :=
        ih rest (by omega) g' (by omega)
      simp only [parseStringBody]
      by_cases h1 : c = '"'
      · simp only [if_pos h1]
      · simp only [if_neg h1]
        by_cases h2 : c = '\\'
        · simp only [if_pos h2]
          cases rest with
          | nil => rfl
          | cons e r =>
            simp only [List.length_cons] at hcs
            simp only
            by_cases h3 : e = 'u'
            · simp only [if_pos h3]
              cases hh : hex4 r with
              | none => rfl
              | some p =>
                obtain ⟨n, r1⟩ := p
                have h4 := hex4_length _ _ _ hh
                have hr1 : parseStringBody g' r1 = parseStringBody f r1 :=
                  ih r1 (by omega) g' (by omega)
                simp only
                by_cases h5 : 55296 ≤ n ∧ n ≤ 56319
                · simp only [if_pos h5]
                  cases hl : lowSurrogate r1 with
                  | none => simp only [hr1]
                  | some p2 =>
                    obtain ⟨m, r2⟩ := p2
                    have hl2 := lowSurrogate_length _ _ _ hl
                    have hr2 : parseStringBody g' r2 = parseStringBody f r2 :=
                      ih r2 (by omega) g' (by omega)
                    simp only [hr2]
                · simp only [if_neg h5, hr1]
            · simp only [if_neg h3]
              have hr : parseStringBody g' r = parseStringBody f r :=
                ih r (by omega) g' (by omega)
              cases simpleEscape e with
              | none => rfl
              | some ch => simp only [hr]
        · simp only [if_neg h2, hrest]

/-- Fuel beyond twice the length of the text (plus two, or plus three inside an
array or an object) does not change what the parser returns. -/
theorem parse_fuel : ∀ (f : Nat),
    (∀ (cs : List Char), 2 * cs.length + 2 ≤ f →
      ∀ g, f ≤ g → parseValue g cs = parseValue f cs)
    ∧ (∀ (cs : List Char) (acc : List JSValue), 2 * cs.length + 3 ≤ f →
      ∀ g, f ≤ g → parseElements g cs acc = parseElements f cs acc)
    ∧ (∀ (cs : List Char) (acc : List (String × JSValue)), 2 * cs.length + 3 ≤ f →
      ∀ g, f ≤ g → parseMembers g cs acc = parseMembers f cs acc) := by
  intro f
  induction f with
  | zero =>
    refine ⟨?_, ?_, ?_⟩
    · intro cs h
      omega
    · intro cs acc h
      omega
    · intro cs acc h
      omega
  | succ f ih =>
    obtain ⟨ihV, ihE, ihM⟩ := ih
    refine ⟨?_, ?_, ?_⟩
    · intro cs hcs g hg
      obtain ⟨g', rfl⟩ : ∃ g', g = g' + 1 := ⟨g - 1, by omega⟩
      cases hs : skipWs cs with
      | nil => simp [parseValue, hs]
      | cons c r0 =>
        have hl := length_of_skipWs_eq cs r0 c hs
        simp only [parseValue, hs]
        split_ifs with h1 h2 h3 h4 h5 h6 h7
        · rfl
        · rfl
        · rfl
        · rfl
        · cases hs1 : skipWs r0 with
          | nil => rfl
          | cons c1 r1 =>
            have hl1 := length_of_skipWs_eq r0 r1 c1 hs1
            simp only
            split_ifs
            · rfl
            · exact ihE (c1 :: r1) [] (by simp; omega) g' (by omega)
        · cases hs1 : skipWs r0 with
          | nil => rfl
          | cons c1 r1 =>
            have hl1 := length_of_skipWs_eq r0 r1 c1 hs1
            simp only
            split_ifs
            · rfl
            · exact ihM (c1 :: r1) [] (by simp; omega) g' (by omega)
        · rfl
        · rfl
    · intro cs acc hcs g hg
      obtain ⟨g', rfl⟩ : ∃ g', g = g' + 1 := ⟨g - 1, by omega⟩
      simp only [parseElements]
      rw [ihV cs (by omega) g' (by omega)]
      cases hv : parseValue f cs with
      | none => rfl
      | some p =>
        obtain ⟨v1, r1⟩ := p
        have hl := (parse_length f).1 _ _ _ hv
        simp only
        cases hs : skipWs r1 with
        | nil => rfl
        | cons c r2 =>
          have hl2 := length_of_skipWs_eq r1 r2 c hs
          simp only
          split_ifs
          · exact ihE r2 _ (by omega) g' (by omega)
          · rfl
          · rfl
    · intro cs acc hcs g hg
      obtain ⟨g', rfl⟩ : ∃ g', g = g' + 1 := ⟨g - 1, by omega⟩
      simp only [parseMembers]
      cases hs : skipWs cs with
      | nil => rfl
      | cons q r0 =>
        have hl := length_of_skipWs_eq cs r0 q hs
        simp only
        split_ifs
        · cases hk : parseStringBody r0.length r0 with
          | none => rfl
          | some p =>
            obtain ⟨k, r1⟩ := p
            have hl1 := parseStringBody_length _ _ _ _ hk
            simp only
            cases hs1 : skipWs r1 with
            | nil => rfl
            | cons c r2 =>
              have hl2 := length_of_skipWs_eq r1 r2 c hs1
              simp only
              split_ifs
              · rw [ihV r2 (by omega) g' (by omega)]
                cases hv : parseValue f r2 with
                | none => rfl
                | some p2 =>
                  obtain ⟨v1, r3⟩ := p2
                  have hl3 := (parse_length f).1 _ _ _ hv
                  simp only
                  cases hs3 : skipWs r3 with
                  | nil => rfl
                  | cons d r4 =>
                    have hl4 := length_of_skipWs_eq r3 r4 d hs3
                    simp only
                    split_ifs
                    · exact ihM r4 _ (by omega) g' (by omega)
                    · rfl
                    · rfl
              · rfl
        · rfl

/-- The fuel that `jsonParse` passes is enough: with any larger fuel the parser
returns the same result on the same text. -/
theorem jsonParse_fuel (text : String) (g : Nat) (hg : 2 * text.length + 2 ≤ g) :
    parseValue g text.data = parseValue (2 * text.length + 2) text.data :=
  (parse_fuel (2 * text.length + 2)).1 text.data (le_of_eq rfl) g hg

end HabitTracker
